import Mathlib

/-!
A verification development for the candidate-generation pipeline of the
NLSpEL repository.  The pipeline under study is the module
`candidate_generation/create_entities_candidates.py` together with its
companion reader `src/spel/multinerd.py` (class `Candidate`).

Python strings are embedded as lists of characters (`PyStr`); Python
dictionaries (which are insertion ordered) are embedded as association
lists; Python sets of strings are embedded as duplicate-free lists in
insertion order.  Fallible code (indexing that can raise `IndexError`,
`int()` that can raise `ValueError`, dictionary lookup that can raise
`KeyError`) is embedded in `Except String`.
-/

/-- Python strings, embedded as lists of characters. -/
abbrev PyStr := List Char

/-- Coerce a Lean string literal to the `PyStr` embedding. -/
def ofString (s : String) : PyStr := s.data

/-- Python `str.lower()` (ASCII case folding, which is all the pipeline uses). -/
def pyLower (s : PyStr) : PyStr := s.map Char.toLower

/-- Python `s.replace(' ', '')`: delete every space character. -/
def removeSpaces (s : PyStr) : PyStr := s.filter (fun c => c ≠ ' ')

/-- Python `s.replace(' ', '_')`. -/
def spacesToUnderscores (s : PyStr) : PyStr := s.map (fun c => if c = ' ' then '_' else c)

/-- The whitespace characters stripped by Python's default `str.strip()`. -/
def isPySpace (c : Char) : Bool :=
  c = ' ' || c = '\t' || c = '\n' || c = '\x0d' || c = '\x0b' || c = '\x0c'

/-- Strip characters satisfying `p` from both ends of a string
(the shape of Python `str.strip(chars)`). -/
def stripBoth (p : Char → Bool) (s : PyStr) : PyStr :=
  ((s.dropWhile p).reverse.dropWhile p).reverse

/-- Python `str.strip()` with no argument: strip whitespace from both ends. -/
def pyStrip (s : PyStr) : PyStr := stripBoth isPySpace s

/-- Python `str.strip(chars)`: strip any of the given characters from both ends. -/
def pyStripChars (chars : PyStr) (s : PyStr) : PyStr :=
  stripBoth (fun c => chars.contains c) s

/-- Python `str.rstrip(chars)`: strip any of the given characters from the right end. -/
def pyRStripChars (chars : PyStr) (s : PyStr) : PyStr :=
  (s.reverse.dropWhile (fun c => chars.contains c)).reverse

/-- Python `s.split(sep)` for a one-character separator `sep` (every separator
occurrence splits; `"".split(sep) = [""]`). -/
def splitOnChar (sep : Char) : PyStr → List PyStr
  | [] => [[]]
  | c :: cs =>
    let r := splitOnChar sep cs
    if c = sep then [] :: r
    else
      match r with
      | [] => [[c]]
      | p :: ps => (c :: p) :: ps

/-- Python `s.partition(sep)` for a one-character separator, returning the text
before the first occurrence and the text after it (both empty-after when the
separator is absent, matching `key, _, value = item.partition(':')`). -/
def partitionChar (sep : Char) : PyStr → PyStr × PyStr
  | [] => ([], [])
  | c :: cs =>
    if c = sep then ([], cs)
    else
      let r := partitionChar sep cs
      (c :: r.1, r.2)

/-- Join strings with a one-character separator (the combinator used to embed
the tab-separated f-strings of the exporter). -/
def intercalateChar (sep : Char) : List PyStr → PyStr
  | [] => []
  | [f] => f
  | f :: fs => f ++ sep :: intercalateChar sep fs

/-- Insertion into a Python set embedded as a duplicate-free list
(`set.add`: no effect when the element is present, else appended). -/
def setInsert {α : Type} [DecidableEq α] (x : α) (s : List α) : List α :=
  if x ∈ s then s else s ++ [x]

/-! ### Association lists: the embedding of Python dictionaries -/

/-- Lookup in an insertion-ordered dictionary (first matching key). -/
def alGet {α : Type} (m : List (PyStr × α)) (k : PyStr) : Option α :=
  match m with
  | [] => none
  | p :: ps => if p.1 = k then some p.2 else alGet ps k

/-- Update the value stored at key `k` (first occurrence) in place. -/
def alModify {α : Type} (m : List (PyStr × α)) (k : PyStr) (f : α → α) :
    List (PyStr × α) :=
  match m with
  | [] => []
  | p :: ps => if p.1 = k then (p.1, f p.2) :: ps else p :: alModify ps k f

/-- Python `del d[k]`: remove the entry stored at key `k` (first occurrence). -/
def alDel {α : Type} (m : List (PyStr × α)) (k : PyStr) : List (PyStr × α) :=
  match m with
  | [] => []
  | p :: ps => if p.1 = k then ps else p :: alDel ps k

/-! ### Entity Table Builder (`extract_entities`) -/

/-- One gold-entity record, as built by `extract_entities`
(`{'name': …, 'link': …, 'wname': …, 'fid': …, 'wid': …, 'candidates': …}`,
with the candidate list represented separately at export time). -/
structure Entity where
  name : PyStr
  link : PyStr
  wname : PyStr
  fid : PyStr
  wid : PyStr
  deriving Repr, DecidableEq

/-- The entity table: normalized key to entity record, insertion ordered. -/
abbrev EntityMap := List (PyStr × Entity)

/-- The key normalization of `extract_entities`:
`row[2].replace(' ', '').split('(')[0].lower()`. -/
def normalizeEntity (s : PyStr) : PyStr :=
  pyLower (((splitOnChar '(' (removeSpaces s))).headD [])

/-- Row field access `row[i]` (guarded in-range at every use site). -/
def rowGet (row : List PyStr) (i : Nat) : PyStr := row.getD i []

/-- Whether a row's second field marks a mention start:
`row[1].split('-')[0] == "B"`. -/
def rowTagIsB (row : List PyStr) : Bool :=
  ((splitOnChar '-' (rowGet row 1)).headD []) = ofString "B"

/-- Processing of one csv row by `extract_entities`.  A row with more than four
fields whose tag starts the `B` segment and whose normalized key is new reads
fields 2,4,6,3,5; reading field 6 of a row with fewer than seven fields raises
`IndexError` (uncaught in the source). -/
def extractEntitiesRow (m : EntityMap) (row : List PyStr) :
    Except String EntityMap :=
  if 4 < row.length ∧ rowTagIsB row then
    let key := normalizeEntity (rowGet row 2)
    if (alGet m key).isSome then .ok m
    else if 6 < row.length then
      .ok (m ++ [(key,
        { name := rowGet row 2
          link := rowGet row 4
          wname := rowGet row 3
          fid := rowGet row 6
          wid := rowGet row 5 })])
    else .error "IndexError"
  else .ok m

/-- `extract_entities`: fold the row step over the csv rows, propagating the
first uncaught exception. -/
def extractEntities (rows : List (List PyStr)) : Except String EntityMap :=
  rows.foldlM extractEntitiesRow []

/-- View of `Except` as a sum, for deciding equalities of results. -/
def exceptToSum {ε α : Type} (e : Except ε α) : ε ⊕ α :=
  match e with
  | .error x => .inl x
  | .ok a => .inr a

instance {ε α : Type} [DecidableEq ε] [DecidableEq α] : DecidableEq (Except ε α) :=
  fun a b =>
    decidable_of_iff (exceptToSum a = exceptToSum b)
      (by cases a <;> cases b <;> simp [exceptToSum])

/-! ### Candidate records and the Candidate Miner (`extract_candidates`) -/

/-- A candidate record, as built by `add_candidate` inside `extract_candidates`.
`id` is `none` until resolved (Python `None`); `links` is a Python set whose
elements are strings or — after the redirect pass — possibly `None`, so an
element is an `Option PyStr` with `none` embedding Python's `None`. -/
structure Cand where
  id : Option PyStr
  inCount : Nat
  outCount : Nat
  links : List (Option PyStr)
  url : PyStr
  name : PyStr
  normalName : PyStr
  normalWikiTitle : PyStr
  references : List PyStr
  deriving Repr, DecidableEq

/-- The candidate map `all_candidates`, keyed by candidate surface form. -/
abbrev CandMap := List (PyStr × Cand)

/-- The fresh record built by `add_candidate` on first discovery. -/
def mkFreshCand (entityKey candidate : PyStr) : Cand :=
  { id := none
    inCount := 0
    outCount := 0
    links := []
    url := ofString "https://nl.wikipedia.org/wiki/" ++ spacesToUnderscores candidate
    name := spacesToUnderscores candidate
    normalName := pyLower candidate
    normalWikiTitle := spacesToUnderscores (pyLower candidate)
    references := [entityKey] }

/-- `add_candidate(entity_key, candidate, all_candidates)`: insert a fresh
record, or add the entity key to the existing record's reference set. -/
def addCandidate (entityKey candidate : PyStr) (m : CandMap) : CandMap :=
  match alGet m candidate with
  | none => m ++ [(candidate, mkFreshCand entityKey candidate)]
  | some _ =>
    alModify m candidate
      (fun c => { c with references := setInsert entityKey c.references })

/-- Lazy search for the closing tag of a regex fragment `(.*?)close`:
the capture may not cross a newline (`.` does not match `\n`) and takes the
shortest extent whose continuation is the closing tag. -/
def lazyCapture (close : PyStr) : PyStr → Option PyStr
  | [] => none
  | c :: cs =>
    if close.isPrefixOf (c :: cs) then some []
    else if c = '\n' then none
    else (lazyCapture close cs).map (fun r => c :: r)

/-- `re.search(open(.*?)close, s)`: first position where the open tag matches
and a lazy capture reaches the closing tag. -/
def searchTagged (opening close : PyStr) : PyStr → Option PyStr
  | [] => none
  | c :: cs =>
    if opening.isPrefixOf (c :: cs) then
      match lazyCapture close (List.drop opening.length (c :: cs)) with
      | some content => some content
      | none => searchTagged opening close cs
    else searchTagged opening close cs

/-- `re.search(r"\[\[([^]]*)\]\]", s)`: the capture of the first bracketed
link.  At a position where `[[` matches, the greedy class `[^]]*` runs to the
first `]`, and the match succeeds exactly when that run is followed by `]]`
(a shorter capture would be followed by a non-`]` character). -/
def searchLink : PyStr → Option PyStr
  | [] => none
  | c :: cs =>
    match c, cs with
    | '[', '[' :: rest =>
      let content := rest.takeWhile (fun ch => ch ≠ ']')
      match rest.drop content.length with
      | ']' :: ']' :: _ => some content
      | _ => searchLink cs
    | _, _ => searchLink cs

/-- Normalization applied to aliases and to entity keys in the miner:
`alias.lower().replace(' ', '')`. -/
def normKey (s : PyStr) : PyStr := removeSpaces (pyLower s)

/-- The three aliases tried per mined line, in order:
`name` (text before any `|`), `alias_1` (text after `|`, parenthetical
stripped; absent when the capture has no `|`), `alias_2` (text before `|`,
parenthetical stripped). -/
def aliasesOf (g1 : PyStr) : List (Option PyStr) :=
  let name := pyStrip ((splitOnChar '|' g1).headD [])
  let alias1 : Option PyStr :=
    if '|' ∈ g1 then
      some (pyStrip ((splitOnChar '('
        ((splitOnChar '|' g1).getD 1 [])).headD []))
    else none
  let alias2 := pyStrip ((splitOnChar '(' ((splitOnChar '|' g1).headD [])).headD [])
  [some name, alias1, some alias2]

/-- A truthy alias matches when its normalization is a known entity key. -/
def aliasOK (entityNames : List PyStr) (a : Option PyStr) : Bool :=
  match a with
  | none => false
  | some s => !s.isEmpty && decide (normKey s ∈ entityNames)

/-- First-match-wins scan over the three aliases, returning the matched
normalized entity key. -/
def firstMatchKey (entityNames : List PyStr) (g1 : PyStr) : Option PyStr :=
  match (aliasesOf g1).find? (aliasOK entityNames) with
  | some (some s) => some (normKey s)
  | _ => none

/-- The outcome of one mined line: the matched entity key together with the
candidate surface form that is recorded, namely the text before the first `|`
of the first bracketed link, whitespace-stripped
(`candidate.group(1).split("|")[0].strip()`). -/
def lineResult (entityNames : List PyStr) (rawLine : PyStr) :
    Option (PyStr × PyStr) :=
  let line := pyStrip rawLine
  match searchLink line with
  | none => none
  | some g1 =>
    match firstMatchKey entityNames g1 with
    | some ek => some (ek, pyStrip ((splitOnChar '|' g1).headD []))
    | none => none

/-- Processing of one corpus line by `extract_candidates`. -/
def processLine (entityNames : List PyStr) (m : CandMap) (rawLine : PyStr) :
    CandMap :=
  match lineResult entityNames rawLine with
  | some r => addCandidate r.1 r.2 m
  | none => m

/-- `extract_candidates(file_path, entities)`: normalize the entity keys, then
fold the line step over the corpus lines starting from an empty map. -/
def extractCandidates (lines : List PyStr) (entities : EntityMap) : CandMap :=
  let entityNames := entities.map (fun p => normKey p.1)
  lines.foldl (processLine entityNames) []

/-! ### Link-Graph Counter (`extract_candidates_counts`) -/

/-- Fuel-bounded scan for `re.findall(r"\[\[([^]]*)\]\]", page)`: every step
consumes at least one character, so any fuel exceeding the string length gives
the total scan.  (Structural recursion on the fuel keeps the function
kernel-reducible.) -/
def findallLinksF : Nat → PyStr → List PyStr
  | 0, _ => []
  | fuel + 1, s =>
    match s with
    | '[' :: '[' :: rest =>
      let content := rest.takeWhile (fun ch => ch ≠ ']')
      (match rest.drop content.length with
       | ']' :: ']' :: rest2 => content :: findallLinksF fuel rest2
       | _ => findallLinksF fuel ('[' :: rest))
    | _ :: cs => findallLinksF fuel cs
    | [] => []

/-- `re.findall(r"\[\[([^]]*)\]\]", page)`: all non-overlapping bracketed-link
captures, scanning left to right. -/
def findallLinks (s : PyStr) : List PyStr := findallLinksF (s.length + 1) s

/-- The namespace filter
`re.search(r"^(Categorie|Gebruiker|Bestand):", link)`. -/
def isNamespaceLink (l : PyStr) : Bool :=
  (ofString "Categorie:").isPrefixOf l ||
  (ofString "Gebruiker:").isPrefixOf l ||
  (ofString "Bestand:").isPrefixOf l

/-- The link target: text before any `|` (`link.split('|')[0]`, no strip). -/
def targetOf (link : PyStr) : PyStr := (splitOnChar '|' link).headD []

/-- `<title>` extraction from a page fragment. -/
def extractTitle (page : PyStr) : Option PyStr :=
  searchTagged (ofString "<title>") (ofString "</title>") page

/-- `<id>` extraction from a page fragment. -/
def extractId (page : PyStr) : Option PyStr :=
  searchTagged (ofString "<id>") (ofString "</id>") page

/-- The non-namespace link captures of a page. -/
def pageLinks (page : PyStr) : List PyStr :=
  (findallLinks page).filter (fun l => !isNamespaceLink l)

/-- `all_candidates[target]['inCount'] += 1`. -/
def bumpIn (c : Cand) : Cand := { c with inCount := c.inCount + 1 }

/-- `all_candidates[title]['outCount'] += 1; all_candidates[title]['links'].add(target)`. -/
def bumpOutLink (target : PyStr) (c : Cand) : Cand :=
  { c with outCount := c.outCount + 1, links := setInsert (some target) c.links }

/-- `all_candidates[title]['id'] = id`. -/
def setCandId (i : PyStr) (c : Cand) : Cand := { c with id := some i }

/-- One link occurrence inside the counting loop: when the target is a known
candidate key, bump its `inCount`, bump the page-title candidate's `outCount`,
and add the target to the title candidate's link set. -/
def procLink (title : PyStr) (m : CandMap) (link : PyStr) : CandMap :=
  if (alGet m (targetOf link)).isSome then
    alModify (alModify m (targetOf link) bumpIn) title
      (bumpOutLink (targetOf link))
  else m

/-- The id-recording step of one page (`if id: all_candidates[title]['id'] = id`). -/
def recordId (m : CandMap) (t : PyStr) (idv : Option PyStr) : CandMap :=
  match idv with
  | some i => if i ≠ [] then alModify m t (setCandId i) else m
  | none => m

/-- Processing of one `<page>` fragment: extract title, id and links; when the
title is truthy and a known candidate key, record the id (when truthy) and
count every link occurrence. -/
def processPage (m : CandMap) (page : PyStr) : CandMap :=
  match extractTitle page with
  | none => m
  | some t =>
    if t ≠ [] ∧ (alGet m t).isSome then
      (pageLinks page).foldl (procLink t) (recordId m t (extractId page))
    else m

/-- Fuel-bounded scan for `re.split(r"<page.*?>", content)`: split the shard
at every `<page…>` tag (lazy match to the first `>` with `.` not crossing
newlines).  Every step consumes at least one character. -/
def splitPagesAuxF : Nat → PyStr → PyStr → List PyStr
  | 0, acc, _ => [acc.reverse]
  | fuel + 1, acc, s =>
    match s with
    | [] => [acc.reverse]
    | c :: cs =>
      if (ofString "<page").isPrefixOf (c :: cs) then
        match lazyCapture (ofString ">") (List.drop 5 (c :: cs)) with
        | some content =>
          acc.reverse ::
            splitPagesAuxF fuel []
              (List.drop (content.length + 1) (List.drop 5 (c :: cs)))
        | none => splitPagesAuxF fuel (c :: acc) cs
      else splitPagesAuxF fuel (c :: acc) cs

/-- The page fragments of one shard, blank fragments dropped
(`[page for page in pages if page.strip() != '']`). -/
def splitPages (content : PyStr) : List PyStr :=
  (splitPagesAuxF (content.length + 1) [] content).filter
    (fun p => !(pyStrip p).isEmpty)

/-- `extract_candidates_counts(dir_path, all_candidates)`: fold page processing
over every page of every shard, shards in the given listing order. -/
def extractCandidatesCounts (shards : List PyStr) (m : CandMap) : CandMap :=
  shards.foldl (fun acc sh => (splitPages sh).foldl processPage acc) m

/-- The `inCount` stored for key `c` (0 when absent). -/
def inCountOf (m : CandMap) (c : PyStr) : Nat :=
  match alGet m c with
  | some r => r.inCount
  | none => 0

/-- The `outCount` stored for key `c` (0 when absent). -/
def outCountOf (m : CandMap) (c : PyStr) : Nat :=
  match alGet m c with
  | some r => r.outCount
  | none => 0

/-- The key-membership predicate of a candidate map (`in all_candidates.keys()`),
which the counting pass never changes. -/
def keysOf (m : CandMap) (k : PyStr) : Bool := (alGet m k).isSome

/-- The number of `inCount` increments one page fragment contributes to key
`c`: zero unless the page's own title is truthy and a candidate key, else one
per link occurrence whose target (text before `|`) is `c` and is a candidate
key. -/
def inDelta (K : PyStr → Bool) (page : PyStr) (c : PyStr) : Nat :=
  match extractTitle page with
  | none => 0
  | some t =>
    if t ≠ [] ∧ K t = true then
      (pageLinks page).countP (fun l => decide (targetOf l = c) && K (targetOf l))
    else 0

/-- The number of `outCount` increments one page fragment contributes to key
`c`: zero unless the page's truthy title is a candidate key equal to `c`, else
one per link occurrence whose target is a candidate key. -/
def outDelta (K : PyStr → Bool) (page : PyStr) (c : PyStr) : Nat :=
  match extractTitle page with
  | none => 0
  | some t =>
    if t ≠ [] ∧ K t = true ∧ c = t then
      (pageLinks page).countP (fun l => K (targetOf l))
    else 0

/-! ### Redirect Resolver (`replace_links`) -/

/-- Python truthiness of an id value: `None` and `""` are falsy. -/
def truthyId (o : Option PyStr) : Bool :=
  match o with
  | none => false
  | some s => !s.isEmpty

/-- Processing of one snapshot link entry of candidate `ckey`: an entry naming
a key still present is removed and the (possibly `None`) id of that key is
added; an entry naming an absent key is removed; a `None` entry is removed
(Python `None in all_candidates` is false). -/
def replaceLinkEntry (ckey : PyStr) (m : CandMap) (entry : Option PyStr) :
    CandMap :=
  match entry with
  | some nm =>
    match alGet m nm with
    | some c2 =>
      alModify m ckey (fun c =>
        { c with links := setInsert c2.id (c.links.filter (fun e => e ≠ some nm)) })
    | none =>
      alModify m ckey (fun c =>
        { c with links := c.links.filter (fun e => e ≠ some nm) })
  | none =>
    alModify m ckey (fun c =>
      { c with links := c.links.filter (fun e => e ≠ none) })

/-- Processing of one snapshot key: delete the candidate when its id is falsy,
else rewrite each entry of a snapshot of its link set. -/
def replaceLinksStep (m : CandMap) (ckey : PyStr) : CandMap :=
  match alGet m ckey with
  | none => m
  | some c =>
    if truthyId c.id then c.links.foldl (replaceLinkEntry ckey) m
    else alDel m ckey

/-- `replace_links(all_candidates)`: iterate over a snapshot of the keys in
insertion order. -/
def replaceLinks (m : CandMap) : CandMap :=
  (m.map Prod.fst).foldl replaceLinksStep m

/-- A link entry is resolved with respect to a map when it is `None` or is the
(truthy) id of some candidate present in the map. -/
def resolvedEntry (x : CandMap) (e : Option PyStr) : Prop :=
  e = none ∨ ∃ k2 c2, alGet x k2 = some c2 ∧ truthyId c2.id = true ∧ e = c2.id

/-- No candidate of the map stores the empty string as its id (ids come from
the counting pass, which only stores truthy ids). -/
def noEmptyIds (x : CandMap) : Prop :=
  ∀ k c, alGet x k = some c → c.id ≠ some []

/-! ### Exporter (`export_data`) -/

/-- `popularity` as assigned at export time: `int(inCount) + int(outCount)`. -/
def popularity (c : Cand) : Nat := c.inCount + c.outCount

/-- Stable insertion step for descending popularity: an element is placed
after every earlier element of equal or greater popularity. -/
def insertPop (a : Cand) : List Cand → List Cand
  | [] => [a]
  | y :: ys =>
    if popularity a < popularity y then y :: insertPop a ys
    else a :: y :: ys

/-- Python `sorted(candidates, key=popularity, reverse=True)`: a stable sort
by popularity descending (CPython's sort is stable, and `reverse=True`
preserves the input order of equal keys), embedded as stable insertion sort. -/
def sortByPopularity (l : List Cand) : List Cand :=
  l.foldr insertPop []

/-- The candidates emitted for one entity: the popularity-sorted list cut to
twenty (`sorted(...)[:20]`). -/
def topCandidates (cands : List Cand) : List Cand :=
  (sortByPopularity cands).take 20

/-- Decimal digit characters, as printed by Python `str(int)` for 0–9. -/
def digitChar : Nat → Char
  | 0 => '0'
  | 1 => '1'
  | 2 => '2'
  | 3 => '3'
  | 4 => '4'
  | 5 => '5'
  | 6 => '6'
  | 7 => '7'
  | 8 => '8'
  | _ => '9'

/-- Fuel-bounded decimal printing (the recursion divides by ten, so any fuel
exceeding the number gives the total function, kept structural so that it is
kernel-reducible). -/
def natCharsF : Nat → Nat → PyStr
  | 0, _ => []
  | fuel + 1, n =>
    if n < 10 then [digitChar n]
    else natCharsF fuel (n / 10) ++ [digitChar (n % 10)]

/-- Python `str(n)` for a non-negative integer: decimal digits. -/
def natChars (n : Nat) : PyStr := natCharsF (n + 1) n

/-- Python `str(x)` for a string-or-`None` value interpolated by an f-string. -/
def pyStrOpt (o : Option PyStr) : PyStr :=
  match o with
  | none => ofString "None"
  | some s => s

/-- Python `repr` of one set element: strings are single-quoted, `None` is
bare. -/
def pyElemRepr (e : Option PyStr) : PyStr :=
  match e with
  | none => ofString "None"
  | some s => '\'' :: s ++ ['\'']

/-- Join strings with a multi-character separator. -/
def intercalateSep (sep : PyStr) : List PyStr → PyStr
  | [] => []
  | [f] => f
  | f :: fs => f ++ sep ++ intercalateSep sep fs

/-- Python `str` of a set of strings/None values: `set()` when empty, else
`{e1, e2, …}` with `, ` separators (iteration order embedded as the list
order). -/
def pySetRepr (l : List (Option PyStr)) : PyStr :=
  match l with
  | [] => ofString "set()"
  | _ => '{' :: (intercalateSep (ofString ", ") (l.map pyElemRepr) ++ ['}'])

/-- The `CANDIDATE` line written by `export_data` for one candidate
(the f-string `CANDIDATE\tid:…\tname:…\tinCount:…\toutCount:…\tlinks:…\t
url:…\tnormalName:…\tnormalwikititle:…`). -/
def exportCandidateLine (c : Cand) : PyStr :=
  intercalateChar '\t'
    [ofString "CANDIDATE",
     ofString "id:" ++ pyStrOpt c.id,
     ofString "name:" ++ c.name,
     ofString "inCount:" ++ natChars c.inCount,
     ofString "outCount:" ++ natChars c.outCount,
     ofString "links:" ++ pySetRepr c.links,
     ofString "url:" ++ c.url,
     ofString "normalName:" ++ c.normalName,
     ofString "normalwikititle:" ++ c.normalWikiTitle]

/-- The `ENTITY` header line written by `export_data` for one entity. -/
def exportEntityHeader (e : Entity) : PyStr :=
  intercalateChar '\t'
    [ofString "ENTITY",
     ofString "text:" ++ e.name,
     ofString "url:" ++ e.link,
     ofString "wname:" ++ e.wname,
     ofString "id:" ++ e.wid,
     ofString "freebaseId:" ++ e.fid]

/-- The lines written for one entity: the header, then one `CANDIDATE` line
per retained top candidate. -/
def exportEntityLines (e : Entity) (cands : List Cand) : List PyStr :=
  exportEntityHeader e :: (topCandidates cands).map exportCandidateLine

/-- `export_data` for one split: the concatenated per-entity line blocks, with
`entities[ent]` raising `KeyError` for an unknown key. -/
def exportData (split : List PyStr) (entities : List (PyStr × Entity × List Cand)) :
    Except String (List PyStr) :=
  split.foldlM
    (fun acc ek =>
      match alGet entities ek with
      | some ec => .ok (acc ++ exportEntityLines ec.1 ec.2)
      | none => .error "KeyError")
    []

/-! ### The companion reader (`multinerd.py`, class `Candidate`) -/

/-- The parsed state built by `Candidate.__init__`. -/
structure PCand where
  id : PyStr
  in_count : Int
  out_count : Int
  links : List PyStr
  url : PyStr
  name : PyStr
  normal_name : PyStr
  normal_wiki_title : PyStr
  deriving Repr, DecidableEq

/-- The initial parsed state (`"" / 0 / [] …`). -/
def pcInit : PCand :=
  { id := [], in_count := 0, out_count := 0, links := [], url := [],
    name := [], normal_name := [], normal_wiki_title := [] }

/-- Digits parse of a non-empty all-digit string. -/
def parseDigits (s : PyStr) : Option Nat :=
  if !s.isEmpty && s.all Char.isDigit then
    some (s.foldl (fun a c => 10 * a + (c.toNat - 48)) 0)
  else none

/-- Python `int(value)` on an already-stripped string: optional sign, then
decimal digits; anything else raises `ValueError`. -/
def pyInt (s : PyStr) : Option Int :=
  match s with
  | '-' :: rest => (parseDigits rest).map (fun n => -(n : Int))
  | '+' :: rest => (parseDigits rest).map (fun n => (n : Int))
  | _ => (parseDigits s).map (fun n => (n : Int))

/-- One `key:value` item step of `Candidate.__init__`. -/
def pcStep (st : PCand) (item : PyStr) : Except String PCand :=
  if item = ofString "CANDIDATE" ∨ (pyStrip item).isEmpty then .ok st
  else
    let kv := partitionChar ':' item
    let key := pyLower (pyStrip kv.1)
    let value := pyStrip kv.2
    if key = ofString "id" then .ok { st with id := value }
    else if key = ofString "incount" then
      match pyInt value with
      | some n => .ok { st with in_count := n }
      | none => .error "ValueError"
    else if key = ofString "outcount" then
      match pyInt value with
      | some n => .ok { st with out_count := n }
      | none => .error "ValueError"
    else if key = ofString "links" then
      let v := pyStripChars (ofString "{} ") value
      let ls :=
        if v.isEmpty then []
        else
          List.map (pyStripChars (ofString " '"))
            ((splitOnChar ',' v).filter (fun p => !(pyStrip p).isEmpty))
      .ok { st with links := ls }
    else if key = ofString "url" then .ok { st with url := value }
    else if key = ofString "name" then .ok { st with name := value }
    else if key = ofString "normalname" then .ok { st with normal_name := value }
    else if key = ofString "normalwikititle" then
      .ok { st with normal_wiki_title := pyRStripChars (ofString ")") value }
    else .ok st

/-- `Candidate.__init__(candidate_line)`: fold the item step over the
tab-separated items. -/
def parseCandidate (line : PyStr) : Except String PCand :=
  (splitOnChar '\t' line).foldlM pcStep pcInit

/-! ## Helper lemmas on the dictionary embedding -/

theorem alGet_alModify {α : Type} (m : List (PyStr × α)) (k k' : PyStr)
    (f : α → α) :
    alGet (alModify m k f) k' =
      if k' = k then (alGet m k).map f else alGet m k' := by
  induction m with
  | nil => simp [alGet, alModify]
  | cons p ps ih =>
    by_cases hp : p.1 = k
    · simp only [alModify, hp, if_pos]
      by_cases hk : k' = k
      · subst hk; simp [alGet, hp]
      · have hne : ¬(p.1 = k') := by rw [hp]; exact fun h => hk h.symm
        have hk2 : ¬(k = k') := fun h => hk h.symm
        simp [alGet, hne, hk, hp, hk2]
    · simp only [alModify, hp, if_neg, ite_false]
      by_cases hq : p.1 = k'
      · have hk : ¬(k' = k) := fun h => hp (hq.trans h)
        simp [alGet, hq, hk]
      · simp [alGet, hq, hp, ih]

theorem mapFst_alModify {α : Type} (m : List (PyStr × α)) (k : PyStr)
    (f : α → α) :
    (alModify m k f).map Prod.fst = m.map Prod.fst := by
  induction m with
  | nil => rfl
  | cons p ps ih =>
    by_cases hp : p.1 = k
    · simp [alModify, hp]
    · simp [alModify, hp, ih]

theorem length_alModify {α : Type} (m : List (PyStr × α)) (k : PyStr)
    (f : α → α) :
    (alModify m k f).length = m.length := by
  have := congrArg List.length (mapFst_alModify m k f)
  simpa using this

theorem alGet_isSome_iff_mem {α : Type} (m : List (PyStr × α)) (k : PyStr) :
    (alGet m k).isSome = true ↔ k ∈ m.map Prod.fst := by
  induction m with
  | nil => simp [alGet]
  | cons p ps ih =>
    by_cases hp : p.1 = k
    · constructor
      · intro _
        exact List.mem_cons.mpr (Or.inl hp.symm)
      · intro _
        simp [alGet, hp]
    · have hne : ¬(k = p.1) := fun h => hp h.symm
      constructor
      · intro h
        have h2 : (alGet ps k).isSome = true := by simpa [alGet, hp] using h
        exact List.mem_cons.mpr (Or.inr (ih.mp h2))
      · intro h
        rcases List.mem_cons.mp h with h | h
        · exact absurd h hne
        · simpa [alGet, hp] using ih.mpr h

theorem alGet_eq_none_of_not_mem {α : Type} {m : List (PyStr × α)} {k : PyStr}
    (h : k ∉ m.map Prod.fst) : alGet m k = none := by
  cases hg : alGet m k with
  | none => rfl
  | some v =>
    exact absurd ((alGet_isSome_iff_mem m k).mp (by simp [hg])) h

theorem mapFst_alDel_sublist {α : Type} (m : List (PyStr × α)) (k : PyStr) :
    List.Sublist ((alDel m k).map Prod.fst) (m.map Prod.fst) := by
  induction m with
  | nil => simp [alDel]
  | cons p ps ih =>
    by_cases hp : p.1 = k
    · simp only [alDel, hp, if_pos, List.map_cons]
      exact (List.Sublist.refl _).cons _
    · simp only [alDel, hp, ite_false, List.map_cons]
      exact ih.cons₂ _

theorem alGet_alDel {α : Type} (m : List (PyStr × α)) (k k' : PyStr)
    (hnd : (m.map Prod.fst).Nodup) :
    alGet (alDel m k) k' = if k' = k then none else alGet m k' := by
  induction m with
  | nil => simp [alGet, alDel]
  | cons p ps ih =>
    have hnd' : (ps.map Prod.fst).Nodup := (List.nodup_cons.mp hnd).2
    have hpn : p.1 ∉ ps.map Prod.fst := (List.nodup_cons.mp hnd).1
    by_cases hp : p.1 = k
    · subst hp
      simp only [alDel, if_pos]
      by_cases hk : k' = p.1
      · subst hk
        simp [alGet_eq_none_of_not_mem hpn]
      · have : ¬(p.1 = k') := fun h => hk h.symm
        simp [alGet, this, hk]
    · simp only [alDel, hp, ite_false]
      by_cases hq : p.1 = k'
      · have hk : ¬(k' = k) := fun h => hp (hq.trans h)
        simp [alGet, hq, hk]
      · simp [alGet, hq, ih hnd']

theorem nodup_alDel {α : Type} (m : List (PyStr × α)) (k : PyStr)
    (hnd : (m.map Prod.fst).Nodup) : ((alDel m k).map Prod.fst).Nodup :=
  (mapFst_alDel_sublist m k).nodup hnd

theorem alGet_of_mem {α : Type} {m : List (PyStr × α)} {p : PyStr × α}
    (hnd : (m.map Prod.fst).Nodup) (hm : p ∈ m) : alGet m p.1 = some p.2 := by
  induction m with
  | nil => cases hm
  | cons q qs ih =>
    have hnd' : (qs.map Prod.fst).Nodup := (List.nodup_cons.mp hnd).2
    have hqn : q.1 ∉ qs.map Prod.fst := (List.nodup_cons.mp hnd).1
    rcases List.mem_cons.mp hm with hm | hm
    · subst hm; simp [alGet]
    · have hne : ¬(q.1 = p.1) := by
        intro h
        exact hqn (h ▸ (List.mem_map.mpr ⟨p, hm, rfl⟩))
      simp [alGet, hne, ih hnd' hm]

theorem mem_of_alGet {α : Type} {m : List (PyStr × α)} {k : PyStr} {v : α}
    (h : alGet m k = some v) : (k, v) ∈ m := by
  induction m with
  | nil => simp [alGet] at h
  | cons q qs ih =>
    obtain ⟨q1, q2⟩ := q
    by_cases hq : q1 = k
    · simp only [alGet, hq, if_pos] at h
      injection h with h2
      subst hq
      subst h2
      exact List.mem_cons_self _ _
    · simp only [alGet, hq, ite_false] at h
      exact List.mem_cons_of_mem _ (ih h)

/-! ## Claim C3: short-row handling in the Entity Table Builder -/

/-- C3 counterexample: a row whose second field begins with `B` but which has
only five fields is not skipped — `extract_entities` raises `IndexError`
(reading `row[6]`), contradicting the claim that it is skipped without
raising. -/
theorem claim_C3_counterexample :
    extractEntities
      [[ofString "tok", ofString "B-LOC", ofString "Name",
        ofString "wname", ofString "link"]] = .error "IndexError" := by
  decide

/-- C3 amended: a row with fewer than five fields is silently skipped, but a
`B`-tagged row with five or six fields and a not-yet-seen key raises
`IndexError` instead of being skipped. -/
theorem claim_C3 :
    (∀ (m : EntityMap) (row : List PyStr),
      row.length < 5 → extractEntitiesRow m row = .ok m) ∧
    (∀ (m : EntityMap) (row : List PyStr),
      4 < row.length → row.length < 7 → rowTagIsB row = true →
      alGet m (normalizeEntity (rowGet row 2)) = none →
      extractEntitiesRow m row = .error "IndexError") := by
  constructor
  · intro m row h
    have hc : ¬(4 < row.length ∧ rowTagIsB row) := fun hc => absurd hc.1 (by omega)
    simp [extractEntitiesRow, hc]
  · intro m row h5 h7 hB hkey
    have hc : (4 < row.length ∧ rowTagIsB row) := ⟨h5, hB⟩
    have h7' : ¬(6 < row.length) := by omega
    simp [extractEntitiesRow, hc, hkey, h7']

/-- C3 witness: the amended behavior on concrete rows. -/
theorem claim_C3_witness :
    extractEntitiesRow [] [ofString "a"] = .ok [] ∧
    extractEntitiesRow []
      [ofString "t", ofString "B", ofString "N", ofString "w", ofString "l"] =
      .error "IndexError" :=
  ⟨claim_C3.1 [] [ofString "a"] (by decide),
   claim_C3.2 []
     [ofString "t", ofString "B", ofString "N", ofString "w", ofString "l"]
     (by decide) (by decide) (by decide) (by decide)⟩

/-! ## Claim C7: key normalization and first-occurrence-wins -/

/-- C7: the entity key normalization maps `Lionel Messi (footballer)` to
`lionelmessi`, and a row whose normalized key is already present leaves the
entity table unchanged (its provenance fields are not merged). -/
theorem claim_C7 :
    normalizeEntity (ofString "Lionel Messi (footballer)") =
      ofString "lionelmessi" ∧
    ∀ (m : EntityMap) (row : List PyStr),
      (alGet m (normalizeEntity (rowGet row 2))).isSome = true →
      extractEntitiesRow m row = .ok m := by
  constructor
  · decide
  · intro m row h
    unfold extractEntitiesRow
    split
    · simp [h]
    · rfl

/-- C7 witness: a concrete duplicate row (same normalized key, different
provenance) is ignored. -/
theorem claim_C7_witness :
    extractEntitiesRow
      [(ofString "lionelmessi",
        { name := ofString "Lionel Messi (footballer)", link := ofString "u1",
          wname := ofString "w1", fid := ofString "f1", wid := ofString "i1" })]
      [ofString "tok", ofString "B-PER", ofString "Lionel Messi (goalkeeper)",
       ofString "w2", ofString "u2", ofString "i2", ofString "f2"] =
      .ok [(ofString "lionelmessi",
        { name := ofString "Lionel Messi (footballer)", link := ofString "u1",
          wname := ofString "w1", fid := ofString "f1", wid := ofString "i1" })] :=
  claim_C7.2 _ _ (by decide)

/-! ## Claim C6: first-match-wins alias resolution in the Candidate Miner -/

/-- C6: (i) the concrete scenario — with entity table `{"amsterdam"}` and line
`"The city [[Amsterdam|capital]] is busy"`, mining creates exactly one
candidate, keyed `Amsterdam`, with `references = {"amsterdam"}`; (ii) a
processed line adds at most one candidate record to the map; (iii) the aliases
are tried in order `name`, `alias_1`, `alias_2`: when the truthy `name` alias
matches, the match is `name`'s key regardless of the other aliases. -/
theorem claim_C6 :
    (let r := extractCandidates
        [ofString "The city [[Amsterdam|capital]] is busy"]
        [(ofString "amsterdam",
          { name := ofString "Amsterdam", link := [], wname := [], fid := [],
            wid := [] })]
     r.map Prod.fst = [ofString "Amsterdam"] ∧
       (alGet r (ofString "Amsterdam")).map Cand.references =
         some [ofString "amsterdam"]) ∧
    (∀ (en : List PyStr) (m : CandMap) (line : PyStr),
      (processLine en m line).length ≤ m.length + 1) ∧
    (∀ (en : List PyStr) (g1 : PyStr),
      aliasOK en (some (pyStrip ((splitOnChar '|' g1).headD []))) = true →
      firstMatchKey en g1 =
        some (normKey (pyStrip ((splitOnChar '|' g1).headD [])))) := by
  refine ⟨by decide, ?_, ?_⟩
  · intro en m line
    cases hr : lineResult en line with
    | none => simp only [processLine, hr]; omega
    | some r =>
      simp only [processLine, hr, addCandidate]
      cases hg : alGet m r.2 with
      | none => simp
      | some c => simp only [length_alModify]; omega
  · intro en g1 h
    simp only [firstMatchKey, aliasesOf, List.find?, h]

/-- C6 witness: the first-match-wins component at a concrete input where the
`name` alias matches. -/
theorem claim_C6_witness :
    firstMatchKey [ofString "amsterdam"] (ofString "Amsterdam|capital") =
      some (normKey (pyStrip
        ((splitOnChar '|' (ofString "Amsterdam|capital")).headD []))) :=
  claim_C6.2.2 [ofString "amsterdam"] (ofString "Amsterdam|capital") (by decide)

/-! ## Claim C9: re-discovery only extends the reference set -/

/-- C9: when the candidate surface form produced by a mined line is already a
key of the candidate map, processing the line only inserts the matched entity
key into that record's `references` set; the rest of the record (id, counts,
links, display fields) is untouched, every other record is untouched, and the
key sequence of the map (hence record count and key uniqueness) is unchanged —
no second record is created. -/
theorem claim_C9 (en : List PyStr) (m : CandMap) (line : PyStr)
    (ek cand : PyStr) (c : Cand)
    (hline : lineResult en line = some (ek, cand))
    (hmem : alGet m cand = some c) :
    alGet (processLine en m line) cand =
      some { c with references := setInsert ek c.references } ∧
    (∀ k', k' ≠ cand → alGet (processLine en m line) k' = alGet m k') ∧
    (processLine en m line).map Prod.fst = m.map Prod.fst := by
  have hstep : processLine en m line =
      alModify m cand
        (fun c => { c with references := setInsert ek c.references }) := by
    simp only [processLine, hline, addCandidate, hmem]
  refine ⟨?_, ?_, ?_⟩
  · rw [hstep, alGet_alModify, if_pos rfl, hmem]
    rfl
  · intro k' hk'
    rw [hstep, alGet_alModify, if_neg hk']
  · rw [hstep]
    exact mapFst_alModify _ _ _

/-- C9 witness: a concrete re-discovery adds the entity key to `references`
and leaves the resolved id, the counts and the key list unchanged. -/
theorem claim_C9_witness :
    alGet
      (processLine [ofString "amsterdam"]
        [(ofString "Amsterdam",
          { id := some (ofString "9"), inCount := 5, outCount := 7,
            links := [some (ofString "3")], url := ofString "u",
            name := ofString "Amsterdam", normalName := ofString "amsterdam",
            normalWikiTitle := ofString "amsterdam",
            references := [ofString "old"] })]
        (ofString "The city [[Amsterdam|capital]] is busy"))
      (ofString "Amsterdam") =
      some { id := some (ofString "9"), inCount := 5, outCount := 7,
             links := [some (ofString "3")], url := ofString "u",
             name := ofString "Amsterdam", normalName := ofString "amsterdam",
             normalWikiTitle := ofString "amsterdam",
             references := setInsert (ofString "amsterdam") [ofString "old"] } ∧
    (processLine [ofString "amsterdam"]
        [(ofString "Amsterdam",
          { id := some (ofString "9"), inCount := 5, outCount := 7,
            links := [some (ofString "3")], url := ofString "u",
            name := ofString "Amsterdam", normalName := ofString "amsterdam",
            normalWikiTitle := ofString "amsterdam",
            references := [ofString "old"] })]
        (ofString "The city [[Amsterdam|capital]] is busy")).map Prod.fst =
      [ofString "Amsterdam"] :=
  ⟨(claim_C9 [ofString "amsterdam"]
      [(ofString "Amsterdam",
        { id := some (ofString "9"), inCount := 5, outCount := 7,
          links := [some (ofString "3")], url := ofString "u",
          name := ofString "Amsterdam", normalName := ofString "amsterdam",
          normalWikiTitle := ofString "amsterdam",
          references := [ofString "old"] })]
      (ofString "The city [[Amsterdam|capital]] is busy")
      (ofString "amsterdam") (ofString "Amsterdam")
      { id := some (ofString "9"), inCount := 5, outCount := 7,
        links := [some (ofString "3")], url := ofString "u",
        name := ofString "Amsterdam", normalName := ofString "amsterdam",
        normalWikiTitle := ofString "amsterdam",
        references := [ofString "old"] }
      (by decide) (by decide)).1,
   (claim_C9 [ofString "amsterdam"]
      [(ofString "Amsterdam",
        { id := some (ofString "9"), inCount := 5, outCount := 7,
          links := [some (ofString "3")], url := ofString "u",
          name := ofString "Amsterdam", normalName := ofString "amsterdam",
          normalWikiTitle := ofString "amsterdam",
          references := [ofString "old"] })]
      (ofString "The city [[Amsterdam|capital]] is busy")
      (ofString "amsterdam") (ofString "Amsterdam")
      { id := some (ofString "9"), inCount := 5, outCount := 7,
        links := [some (ofString "3")], url := ofString "u",
        name := ofString "Amsterdam", normalName := ofString "amsterdam",
        normalWikiTitle := ofString "amsterdam",
        references := [ofString "old"] }
      (by decide) (by decide)).2.2⟩

/-! ## Claim C10: the recorded surface form is the pre-pipe link text -/

/-- C10: whenever a mined line produces a candidate (through whichever alias),
the recorded surface form is the whitespace-stripped text before the first `|`
of the first bracketed link of the stripped line — never the alias text that
matched. -/
theorem claim_C10 (en : List PyStr) (line : PyStr) (ek cand : PyStr)
    (h : lineResult en line = some (ek, cand)) :
    cand = pyStrip ((splitOnChar '|'
      ((searchLink (pyStrip line)).getD [])).headD []) := by
  cases hs : searchLink (pyStrip line) with
  | none =>
    simp only [lineResult, hs] at h
    exact Option.noConfusion h
  | some g1 =>
    cases hf : firstMatchKey en g1 with
    | none =>
      simp only [lineResult, hs, hf] at h
      exact Option.noConfusion h
    | some k =>
      simp only [lineResult, hs, hf, Option.some.injEq, Prod.mk.injEq] at h
      exact h.2.symm

/-- C10 witness: the entity table matches via `alias_1` (`capital`), yet the
recorded candidate is the pre-pipe text `Amsterdam`. -/
theorem claim_C10_witness :
    ofString "Amsterdam" = pyStrip ((splitOnChar '|'
      ((searchLink (pyStrip
        (ofString "The [[Amsterdam|capital]] x"))).getD [])).headD []) :=
  claim_C10 [ofString "capital"] (ofString "The [[Amsterdam|capital]] x")
    (ofString "capital") (ofString "Amsterdam") (by decide)

/-! ## Claim C5: top-20 export, popularity-descending, insertion-stable -/

theorem mem_insertPop {a x : Cand} {l : List Cand} :
    x ∈ insertPop a l ↔ x = a ∨ x ∈ l := by
  induction l with
  | nil => simp [insertPop]
  | cons y ys ih =>
    by_cases hy : popularity a < popularity y
    · simp only [insertPop, hy, if_pos, List.mem_cons, ih]
      tauto
    · simp only [insertPop, hy, ite_false, List.mem_cons]

theorem pairwise_insertPop {a : Cand} {l : List Cand}
    (h : l.Pairwise (fun x y => popularity y ≤ popularity x)) :
    (insertPop a l).Pairwise (fun x y => popularity y ≤ popularity x) := by
  induction l with
  | nil => simp [insertPop]
  | cons y ys ih =>
    rcases List.pairwise_cons.mp h with ⟨hy, hys⟩
    by_cases hlt : popularity a < popularity y
    · simp only [insertPop, hlt, if_pos]
      refine List.pairwise_cons.mpr ⟨?_, ih hys⟩
      intro b hb
      rcases mem_insertPop.mp hb with hb | hb
      · subst hb; omega
      · exact hy b hb
    · simp only [insertPop, hlt, ite_false]
      refine List.pairwise_cons.mpr ⟨?_, h⟩
      intro b hb
      rcases List.mem_cons.mp hb with hb | hb
      · subst hb; omega
      · have := hy b hb; omega

theorem pairwise_sortByPopularity (l : List Cand) :
    (sortByPopularity l).Pairwise (fun x y => popularity y ≤ popularity x) := by
  induction l with
  | nil => simp [sortByPopularity]
  | cons a l ih =>
    have : sortByPopularity (a :: l) = insertPop a (sortByPopularity l) := rfl
    rw [this]
    exact pairwise_insertPop ih

theorem filter_insertPop (a : Cand) (l : List Cand) (p : Nat) :
    (insertPop a l).filter (fun c => decide (popularity c = p)) =
      if popularity a = p then
        a :: l.filter (fun c => decide (popularity c = p))
      else l.filter (fun c => decide (popularity c = p)) := by
  induction l with
  | nil =>
    by_cases hp : popularity a = p <;> simp [insertPop, List.filter, hp]
  | cons y ys ih =>
    by_cases hlt : popularity a < popularity y
    · simp only [insertPop, hlt, if_pos]
      by_cases hyp : popularity y = p
      · have hap : ¬(popularity a = p) := by omega
        simp [List.filter, hyp, hap, ih]
      · simp only [List.filter, decide_eq_true_eq, hyp, ite_false]
        rw [ih]
        by_cases hap : popularity a = p <;> simp [List.filter, hap, hyp]
    · simp only [insertPop, hlt, ite_false]
      by_cases hap : popularity a = p <;>
        by_cases hyp : popularity y = p <;>
          simp [List.filter, hap, hyp]

theorem filter_sortByPopularity (l : List Cand) (p : Nat) :
    (sortByPopularity l).filter (fun c => decide (popularity c = p)) =
      l.filter (fun c => decide (popularity c = p)) := by
  induction l with
  | nil => rfl
  | cons a l ih =>
    have hs : sortByPopularity (a :: l) = insertPop a (sortByPopularity l) := rfl
    rw [hs, filter_insertPop]
    by_cases hap : popularity a = p <;> simp [List.filter, hap, ih]

/-- C5: per exported entity, at most 20 `CANDIDATE` lines are written, the
emitted candidates are ordered by `popularity = inCount + outCount`
descending, and for every popularity value the emitted candidates of that
popularity form a prefix of the input-order candidates of that popularity
(equal popularity keeps insertion order: the sort is stable). -/
theorem claim_C5 (e : Entity) (cands : List Cand) :
    ((exportEntityLines e cands).length ≤ 21 ∧
      (topCandidates cands).length ≤ 20) ∧
    (topCandidates cands).Pairwise (fun x y => popularity y ≤ popularity x) ∧
    (∀ p : Nat, ∃ t : List Cand,
      cands.filter (fun c => decide (popularity c = p)) =
        (topCandidates cands).filter (fun c => decide (popularity c = p)) ++ t) := by
  refine ⟨⟨?_, ?_⟩, ?_, ?_⟩
  · have h1 : (topCandidates cands).length ≤ 20 := by
      unfold topCandidates
      simpa using List.length_take_le 20 (sortByPopularity cands)
    simp only [exportEntityLines, List.length_cons, List.length_map]
    omega
  · unfold topCandidates
    simpa using List.length_take_le 20 (sortByPopularity cands)
  · exact (pairwise_sortByPopularity cands).sublist
      (List.take_sublist 20 (sortByPopularity cands))
  · intro p
    refine ⟨(List.drop 20 (sortByPopularity cands)).filter
      (fun c => decide (popularity c = p)), ?_⟩
    rw [← filter_sortByPopularity cands p]
    conv_lhs => rw [← List.take_append_drop 20 (sortByPopularity cands)]
    rw [List.filter_append]
    rfl

/-! ## Counting machinery for the Link-Graph Counter (claims C1 and C8) -/

theorem inCountOf_alModify_preserve (M : CandMap) (k c : PyStr)
    (f : Cand → Cand) (hf : ∀ r, (f r).inCount = r.inCount) :
    inCountOf (alModify M k f) c = inCountOf M c := by
  unfold inCountOf
  rw [alGet_alModify]
  by_cases h : c = k
  · rw [if_pos h]
    subst h
    cases alGet M c <;> simp [hf]
  · rw [if_neg h]

theorem outCountOf_alModify_preserve (M : CandMap) (k c : PyStr)
    (f : Cand → Cand) (hf : ∀ r, (f r).outCount = r.outCount) :
    outCountOf (alModify M k f) c = outCountOf M c := by
  unfold outCountOf
  rw [alGet_alModify]
  by_cases h : c = k
  · rw [if_pos h]
    subst h
    cases alGet M c <;> simp [hf]
  · rw [if_neg h]

theorem inCountOf_alModify_bump (M : CandMap) (k c : PyStr)
    (f : Cand → Cand) (hf : ∀ r, (f r).inCount = r.inCount + 1) :
    inCountOf (alModify M k f) c =
      inCountOf M c +
        (if (decide (k = c) && (alGet M k).isSome) = true then 1 else 0) := by
  unfold inCountOf
  rw [alGet_alModify]
  by_cases h : c = k
  · rw [if_pos h]
    subst h
    cases alGet M c <;> simp [hf]
  · rw [if_neg h]
    have h2 : ¬(k = c) := fun hh => h hh.symm
    simp [h2]

theorem outCountOf_alModify_bump (M : CandMap) (k c : PyStr)
    (f : Cand → Cand) (hf : ∀ r, (f r).outCount = r.outCount + 1) :
    outCountOf (alModify M k f) c =
      outCountOf M c +
        (if (decide (k = c) && (alGet M k).isSome) = true then 1 else 0) := by
  unfold outCountOf
  rw [alGet_alModify]
  by_cases h : c = k
  · rw [if_pos h]
    subst h
    cases alGet M c <;> simp [hf]
  · rw [if_neg h]
    have h2 : ¬(k = c) := fun hh => h hh.symm
    simp [h2]

theorem isSome_alGet_alModify (x : CandMap) (k c : PyStr) (f : Cand → Cand) :
    (alGet (alModify x k f) c).isSome = (alGet x c).isSome := by
  rw [alGet_alModify]
  by_cases h : c = k
  · rw [if_pos h]
    subst h
    cases alGet x c <;> rfl
  · rw [if_neg h]

theorem isSome_alGet_procLink (t : PyStr) (m : CandMap) (link : PyStr)
    (c : PyStr) :
    (alGet (procLink t m link) c).isSome = (alGet m c).isSome := by
  unfold procLink
  by_cases hT : (alGet m (targetOf link)).isSome = true
  · rw [if_pos hT, isSome_alGet_alModify, isSome_alGet_alModify]
  · rw [if_neg hT]

theorem inCountOf_procLink (t : PyStr) (m : CandMap) (link : PyStr)
    (c : PyStr) :
    inCountOf (procLink t m link) c =
      inCountOf m c +
        (if (decide (targetOf link = c) && (alGet m (targetOf link)).isSome) = true
         then 1 else 0) := by
  unfold procLink
  by_cases hT : (alGet m (targetOf link)).isSome = true
  · rw [if_pos hT]
    rw [inCountOf_alModify_preserve _ _ _ (bumpOutLink (targetOf link))
      (fun r => rfl)]
    rw [inCountOf_alModify_bump _ _ _ bumpIn (fun r => rfl)]
  · rw [if_neg hT]
    have hT' : (alGet m (targetOf link)).isSome = false :=
      Bool.eq_false_iff.mpr hT
    simp [hT']

theorem outCountOf_procLink (t : PyStr) (m : CandMap) (link : PyStr)
    (c : PyStr) :
    outCountOf (procLink t m link) c =
      outCountOf m c +
        (if (decide (t = c) && (alGet m t).isSome &&
             (alGet m (targetOf link)).isSome) = true
         then 1 else 0) := by
  unfold procLink
  by_cases hT : (alGet m (targetOf link)).isSome = true
  · rw [if_pos hT]
    rw [outCountOf_alModify_bump _ _ _ (bumpOutLink (targetOf link))
      (fun r => rfl)]
    rw [outCountOf_alModify_preserve _ _ _ bumpIn (fun r => rfl)]
    rw [isSome_alGet_alModify]
    rw [hT, Bool.and_true]
  · rw [if_neg hT]
    have hT' : (alGet m (targetOf link)).isSome = false :=
      Bool.eq_false_iff.mpr hT
    simp [hT']

theorem inCountOf_foldLinks (t : PyStr) (links : List PyStr) (m : CandMap)
    (c : PyStr) :
    inCountOf (links.foldl (procLink t) m) c =
      inCountOf m c +
        links.countP
          (fun l => decide (targetOf l = c) && (alGet m (targetOf l)).isSome) := by
  induction links generalizing m with
  | nil => simp
  | cons l ls ih =>
    rw [List.foldl_cons, ih (procLink t m l), inCountOf_procLink]
    have hcg : ls.countP
        (fun l' => decide (targetOf l' = c) &&
          (alGet (procLink t m l) (targetOf l')).isSome) =
        ls.countP
          (fun l' => decide (targetOf l' = c) && (alGet m (targetOf l')).isSome) :=
      List.countP_congr (fun a _ => by rw [isSome_alGet_procLink])
    rw [hcg, List.countP_cons]
    omega

theorem outCountOf_foldLinks (t : PyStr) (links : List PyStr) (m : CandMap)
    (c : PyStr) :
    outCountOf (links.foldl (procLink t) m) c =
      outCountOf m c +
        (if (decide (t = c) && (alGet m t).isSome) = true then
          links.countP (fun l => (alGet m (targetOf l)).isSome)
         else 0) := by
  induction links generalizing m with
  | nil => simp
  | cons l ls ih =>
    rw [List.foldl_cons, ih (procLink t m l), outCountOf_procLink]
    have hA : (alGet (procLink t m l) t).isSome = (alGet m t).isSome :=
      isSome_alGet_procLink t m l t
    have hcg : ls.countP
        (fun l' => (alGet (procLink t m l) (targetOf l')).isSome) =
        ls.countP (fun l' => (alGet m (targetOf l')).isSome) :=
      List.countP_congr (fun a _ => by rw [isSome_alGet_procLink])
    rw [hA, hcg, List.countP_cons]
    by_cases hc : (decide (t = c) && (alGet m t).isSome) = true
    · rw [if_pos hc, if_pos hc]
      by_cases hl : (alGet m (targetOf l)).isSome = true
      · simp only [hc, hl, Bool.true_and, Bool.and_true, if_pos]
        omega
      · have hl' : (alGet m (targetOf l)).isSome = false :=
          Bool.eq_false_iff.mpr hl
        simp only [hl', Bool.and_false, Bool.false_and]
        simp
    · rw [if_neg hc, if_neg hc]
      have hc' : (decide (t = c) && (alGet m t).isSome) = false :=
        Bool.eq_false_iff.mpr hc
      simp only [hc', Bool.false_and]
      simp

theorem inCountOf_recordId (m : CandMap) (t : PyStr) (idv : Option PyStr)
    (c : PyStr) : inCountOf (recordId m t idv) c = inCountOf m c := by
  cases idv with
  | none => rfl
  | some i =>
    simp only [recordId]
    by_cases hi : i ≠ []
    · rw [if_pos hi]
      exact inCountOf_alModify_preserve _ _ _ (setCandId i) (fun r => rfl)
    · rw [if_neg hi]

theorem outCountOf_recordId (m : CandMap) (t : PyStr) (idv : Option PyStr)
    (c : PyStr) : outCountOf (recordId m t idv) c = outCountOf m c := by
  cases idv with
  | none => rfl
  | some i =>
    simp only [recordId]
    by_cases hi : i ≠ []
    · rw [if_pos hi]
      exact outCountOf_alModify_preserve _ _ _ (setCandId i) (fun r => rfl)
    · rw [if_neg hi]

theorem isSome_alGet_recordId (m : CandMap) (t : PyStr) (idv : Option PyStr)
    (c : PyStr) :
    (alGet (recordId m t idv) c).isSome = (alGet m c).isSome := by
  cases idv with
  | none => rfl
  | some i =>
    simp only [recordId]
    by_cases hi : i ≠ []
    · rw [if_pos hi, isSome_alGet_alModify]
    · rw [if_neg hi]

theorem isSome_alGet_foldLinks (t : PyStr) (links : List PyStr) (m : CandMap)
    (c : PyStr) :
    (alGet (links.foldl (procLink t) m) c).isSome = (alGet m c).isSome := by
  induction links generalizing m with
  | nil => rfl
  | cons l ls ih => rw [List.foldl_cons, ih, isSome_alGet_procLink]

theorem isSome_alGet_processPage (m : CandMap) (page : PyStr) (c : PyStr) :
    (alGet (processPage m page) c).isSome = (alGet m c).isSome := by
  cases hT : extractTitle page with
  | none => simp only [processPage, hT]
  | some t =>
    simp only [processPage, hT]
    by_cases hg : t ≠ [] ∧ (alGet m t).isSome = true
    · rw [if_pos hg, isSome_alGet_foldLinks, isSome_alGet_recordId]
    · rw [if_neg hg]

theorem keysOf_processPage (m : CandMap) (page : PyStr) :
    keysOf (processPage m page) = keysOf m :=
  funext (fun c => isSome_alGet_processPage m page c)

theorem inCountOf_processPage (m : CandMap) (page : PyStr) (c : PyStr) :
    inCountOf (processPage m page) c =
      inCountOf m c + inDelta (keysOf m) page c := by
  cases hT : extractTitle page with
  | none => simp only [processPage, inDelta, hT]; omega
  | some t =>
    simp only [processPage, inDelta, hT]
    by_cases hg : t ≠ [] ∧ (alGet m t).isSome = true
    · have hg2 : t ≠ [] ∧ keysOf m t = true := hg
      rw [if_pos hg, if_pos hg2, inCountOf_foldLinks, inCountOf_recordId]
      have hcg : (pageLinks page).countP
          (fun l => decide (targetOf l = c) &&
            (alGet (recordId m t (extractId page)) (targetOf l)).isSome) =
          (pageLinks page).countP
            (fun l => decide (targetOf l = c) && keysOf m (targetOf l)) :=
        List.countP_congr (fun a _ => by
          rw [isSome_alGet_recordId]
          rfl)
      rw [hcg]
    · have hg2 : ¬(t ≠ [] ∧ keysOf m t = true) := hg
      rw [if_neg hg, if_neg hg2]
      omega

theorem outCountOf_processPage (m : CandMap) (page : PyStr) (c : PyStr) :
    outCountOf (processPage m page) c =
      outCountOf m c + outDelta (keysOf m) page c := by
  cases hT : extractTitle page with
  | none => simp only [processPage, outDelta, hT]; omega
  | some t =>
    simp only [processPage, outDelta, hT]
    by_cases hg : t ≠ [] ∧ (alGet m t).isSome = true
    · rw [if_pos hg, outCountOf_foldLinks, outCountOf_recordId,
        isSome_alGet_recordId]
      have hcg : (pageLinks page).countP
          (fun l => (alGet (recordId m t (extractId page)) (targetOf l)).isSome) =
          (pageLinks page).countP (fun l => keysOf m (targetOf l)) :=
        List.countP_congr (fun a _ => by
          rw [isSome_alGet_recordId]
          rfl)
      rw [hcg]
      by_cases hct : c = t
      · have hd : decide (t = c) = true := by
          subst hct; exact decide_eq_true rfl
        have hgt : (t ≠ [] ∧ keysOf m t = true ∧ c = t) := ⟨hg.1, hg.2, hct⟩
        rw [if_pos hgt]
        rw [hd, hg.2, Bool.and_true]
        simp
      · have hd : decide (t = c) = false :=
          decide_eq_false (fun h => hct h.symm)
        have hgt : ¬(t ≠ [] ∧ keysOf m t = true ∧ c = t) :=
          fun h => hct h.2.2
        rw [if_neg hgt, hd, Bool.false_and]
        simp
    · have hg2 : ¬(t ≠ [] ∧ keysOf m t = true ∧ c = t) :=
        fun h => hg ⟨h.1, h.2.1⟩
      rw [if_neg hg, if_neg hg2]
      omega

theorem isSome_alGet_foldPages (pages : List PyStr) (m : CandMap)
    (c : PyStr) :
    (alGet (pages.foldl processPage m) c).isSome = (alGet m c).isSome := by
  induction pages generalizing m with
  | nil => rfl
  | cons p ps ih => rw [List.foldl_cons, ih, isSome_alGet_processPage]

theorem keysOf_foldPages (pages : List PyStr) (m : CandMap) :
    keysOf (pages.foldl processPage m) = keysOf m :=
  funext (fun c => isSome_alGet_foldPages pages m c)

theorem inCountOf_foldPages (pages : List PyStr) (m : CandMap) (c : PyStr) :
    inCountOf (pages.foldl processPage m) c =
      inCountOf m c + (pages.map (fun p => inDelta (keysOf m) p c)).sum := by
  induction pages generalizing m with
  | nil => simp
  | cons p ps ih =>
    rw [List.foldl_cons, ih (processPage m p), keysOf_processPage,
      inCountOf_processPage, List.map_cons, List.sum_cons]
    omega

theorem outCountOf_foldPages (pages : List PyStr) (m : CandMap) (c : PyStr) :
    outCountOf (pages.foldl processPage m) c =
      outCountOf m c + (pages.map (fun p => outDelta (keysOf m) p c)).sum := by
  induction pages generalizing m with
  | nil => simp
  | cons p ps ih =>
    rw [List.foldl_cons, ih (processPage m p), keysOf_processPage,
      outCountOf_processPage, List.map_cons, List.sum_cons]
    omega

theorem keysOf_run (shards : List PyStr) (m : CandMap) :
    keysOf (extractCandidatesCounts shards m) = keysOf m := by
  induction shards generalizing m with
  | nil => rfl
  | cons sh shs ih =>
    show keysOf (extractCandidatesCounts shs
      ((splitPages sh).foldl processPage m)) = keysOf m
    rw [ih, keysOf_foldPages]

theorem inCountOf_run (shards : List PyStr) (m : CandMap) (c : PyStr) :
    inCountOf (extractCandidatesCounts shards m) c =
      inCountOf m c +
        (shards.map (fun sh =>
          ((splitPages sh).map (fun p => inDelta (keysOf m) p c)).sum)).sum := by
  induction shards generalizing m with
  | nil => simp [extractCandidatesCounts]
  | cons sh shs ih =>
    show inCountOf (extractCandidatesCounts shs
      ((splitPages sh).foldl processPage m)) c = _
    rw [ih ((splitPages sh).foldl processPage m), keysOf_foldPages,
      inCountOf_foldPages, List.map_cons, List.sum_cons]
    omega

theorem outCountOf_run (shards : List PyStr) (m : CandMap) (c : PyStr) :
    outCountOf (extractCandidatesCounts shards m) c =
      outCountOf m c +
        (shards.map (fun sh =>
          ((splitPages sh).map (fun p => outDelta (keysOf m) p c)).sum)).sum := by
  induction shards generalizing m with
  | nil => simp [extractCandidatesCounts]
  | cons sh shs ih =>
    show outCountOf (extractCandidatesCounts shs
      ((splitPages sh).foldl processPage m)) c = _
    rw [ih ((splitPages sh).foldl processPage m), keysOf_foldPages,
      outCountOf_foldPages, List.map_cons, List.sum_cons]
    omega

/-! ## Claim C1: what the Link-Graph Counter actually counts -/

/-- C1 counterexample: a shard whose single page is titled `X` (not a
candidate) contains the link `[[C]]` whose target `C` is a candidate, yet
after the counting pass `C`'s `inCount` is still 0 — the increment is gated on
the page's own title being a candidate, contradicting "regardless of whether
the page's own title is a candidate". -/
theorem claim_C1_counterexample :
    (let m0 : CandMap := [(ofString "C", mkFreshCand (ofString "e") (ofString "C"))]
     let shard := ofString "<page>\n<title>X</title>\n<id>7</id>\n[[C]]\n</page>"
     ((splitPages shard).map (fun p => (pageLinks p).map targetOf)) =
         [[ofString "C"]] ∧
       keysOf m0 (ofString "C") = true ∧
       keysOf m0 (ofString "X") = false ∧
       inCountOf (extractCandidatesCounts [shard] m0) (ofString "C") = 0) := by
  decide

/-- C1 amended: after the counting pass, a candidate's `inCount` grows by one
per link occurrence (not per distinct link) whose target text (before any `|`)
is that candidate, summed over exactly those pages whose own truthy title is an
existing candidate key; its `outCount` grows by one per link occurrence with a
candidate-key target on pages whose truthy title equals the candidate.  Pages
whose title is empty, absent, or not a candidate key contribute nothing. -/
theorem claim_C1 (shards : List PyStr) (m : CandMap) (c : PyStr) :
    inCountOf (extractCandidatesCounts shards m) c =
      inCountOf m c +
        (shards.map (fun sh =>
          ((splitPages sh).map (fun p => inDelta (keysOf m) p c)).sum)).sum ∧
    outCountOf (extractCandidatesCounts shards m) c =
      outCountOf m c +
        (shards.map (fun sh =>
          ((splitPages sh).map (fun p => outDelta (keysOf m) p c)).sum)).sum :=
  ⟨inCountOf_run shards m c, outCountOf_run shards m c⟩

/-! ## Claim C8: shard-order independence of the final counts -/

/-- C8: for every permutation of the shard list, every candidate's final
`inCount` and `outCount` after the counting pass are the same — the counts are
order-independent commutative sums over per-page contributions. -/
theorem claim_C8 (shards1 shards2 : List PyStr) (m : CandMap)
    (h : shards1.Perm shards2) (c : PyStr) :
    inCountOf (extractCandidatesCounts shards1 m) c =
      inCountOf (extractCandidatesCounts shards2 m) c ∧
    outCountOf (extractCandidatesCounts shards1 m) c =
      outCountOf (extractCandidatesCounts shards2 m) c := by
  constructor
  · rw [inCountOf_run, inCountOf_run]
    have := (h.map (fun sh =>
      ((splitPages sh).map (fun p => inDelta (keysOf m) p c)).sum)).sum_eq
    omega
  · rw [outCountOf_run, outCountOf_run]
    have := (h.map (fun sh =>
      ((splitPages sh).map (fun p => outDelta (keysOf m) p c)).sum)).sum_eq
    omega

/-- C8 witness: two concrete shards processed in both orders give the same
counts for the candidate `Rotterdam`. -/
theorem claim_C8_witness :
    (let m0 : CandMap :=
      [(ofString "Amsterdam", mkFreshCand (ofString "e") (ofString "Amsterdam")),
       (ofString "Rotterdam", mkFreshCand (ofString "e") (ofString "Rotterdam"))]
     let s1 := ofString "<page>\n<title>Amsterdam</title>\n<id>1</id>\n[[Rotterdam]]\n</page>"
     let s2 := ofString "<page>\n<title>Rotterdam</title>\n<id>2</id>\n[[Amsterdam]] [[Rotterdam]]\n</page>"
     inCountOf (extractCandidatesCounts [s1, s2] m0) (ofString "Rotterdam") =
       inCountOf (extractCandidatesCounts [s2, s1] m0) (ofString "Rotterdam") ∧
     outCountOf (extractCandidatesCounts [s1, s2] m0) (ofString "Rotterdam") =
       outCountOf (extractCandidatesCounts [s2, s1] m0) (ofString "Rotterdam")) :=
  claim_C8 _ _ _ (List.Perm.swap _ _ _) (ofString "Rotterdam")

/-! ## Redirect Resolver machinery (claim C2) -/

theorem mem_setInsert {α : Type} [DecidableEq α] (x y : α) (s : List α) :
    y ∈ setInsert x s ↔ y = x ∨ y ∈ s := by
  unfold setInsert
  by_cases hx : x ∈ s
  · rw [if_pos hx]
    constructor
    · exact fun h => Or.inr h
    · rintro (h | h)
      · subst h; exact hx
      · exact h
  · rw [if_neg hx]
    simp [List.mem_append]
    tauto

theorem truthyId_false {o : Option PyStr} (h : truthyId o = false) :
    o = none ∨ o = some [] := by
  cases o with
  | none => exact Or.inl rfl
  | some s =>
    right
    simp only [truthyId, Bool.not_eq_false'] at h
    rw [List.isEmpty_iff.mp h]

theorem id_map_alModify (x : CandMap) (k c : PyStr) (f : Cand → Cand)
    (hf : ∀ r, (f r).id = r.id) :
    (alGet (alModify x k f) c).map Cand.id = (alGet x c).map Cand.id := by
  rw [alGet_alModify]
  by_cases h : c = k
  · rw [if_pos h]
    subst h
    cases alGet x c <;> simp [hf]
  · rw [if_neg h]

theorem alGet_some_of_id_map {x y : CandMap} {k : PyStr}
    (h : (alGet y k).map Cand.id = (alGet x k).map Cand.id) {c' : Cand}
    (hy : alGet y k = some c') : ∃ c, alGet x k = some c ∧ c.id = c'.id := by
  rw [hy] at h
  rcases Option.map_eq_some'.mp h.symm with ⟨c, hc, hid⟩
  exact ⟨c, hc, hid⟩

theorem mapFst_rle (ckey : PyStr) (mi : CandMap) (e : Option PyStr) :
    (replaceLinkEntry ckey mi e).map Prod.fst = mi.map Prod.fst := by
  cases e with
  | none => exact mapFst_alModify _ _ _
  | some nm =>
    simp only [replaceLinkEntry]
    cases alGet mi nm with
    | none => exact mapFst_alModify _ _ _
    | some c2 => exact mapFst_alModify _ _ _

theorem alGet_rle_ne (ckey : PyStr) (mi : CandMap) (e : Option PyStr)
    (k : PyStr) (h : k ≠ ckey) :
    alGet (replaceLinkEntry ckey mi e) k = alGet mi k := by
  cases e with
  | none => rw [replaceLinkEntry, alGet_alModify, if_neg h]
  | some nm =>
    simp only [replaceLinkEntry]
    cases alGet mi nm with
    | none => rw [alGet_alModify, if_neg h]
    | some c2 => rw [alGet_alModify, if_neg h]

theorem id_map_rle (ckey : PyStr) (mi : CandMap) (e : Option PyStr)
    (k : PyStr) :
    (alGet (replaceLinkEntry ckey mi e) k).map Cand.id =
      (alGet mi k).map Cand.id := by
  cases e with
  | none => exact id_map_alModify _ _ _ _ (fun r => rfl)
  | some nm =>
    simp only [replaceLinkEntry]
    cases alGet mi nm with
    | none => exact id_map_alModify _ _ _ _ (fun r => rfl)
    | some c2 => exact id_map_alModify _ _ _ _ (fun r => rfl)

theorem resolved_rle (ckey : PyStr) (mi : CandMap) (e0 e : Option PyStr)
    (h : resolvedEntry mi e) :
    resolvedEntry (replaceLinkEntry ckey mi e0) e := by
  rcases h with h | ⟨k2, c2, hget, htr, heq⟩
  · exact Or.inl h
  · right
    have hmap := id_map_rle ckey mi e0 k2
    rw [hget] at hmap
    rcases Option.map_eq_some'.mp hmap with ⟨c2', hc2', hid⟩
    exact ⟨k2, c2', hc2', by rw [hid, htr], by rw [heq, hid]⟩

theorem noEmptyIds_rle (ckey : PyStr) (mi : CandMap) (e : Option PyStr)
    (h : noEmptyIds mi) : noEmptyIds (replaceLinkEntry ckey mi e) := by
  intro k c' hget
  rcases alGet_some_of_id_map (id_map_rle ckey mi e k) hget with ⟨c, hc, hid⟩
  rw [← hid]
  exact h k c hc

theorem mapFst_rleFold (ckey : PyStr) (es : List (Option PyStr)) :
    ∀ mi : CandMap,
      (es.foldl (replaceLinkEntry ckey) mi).map Prod.fst = mi.map Prod.fst := by
  induction es with
  | nil => intro mi; rfl
  | cons e0 es' ih =>
    intro mi
    rw [List.foldl_cons, ih, mapFst_rle]

theorem alGet_rleFold_ne (ckey : PyStr) (es : List (Option PyStr)) :
    ∀ (mi : CandMap) (k : PyStr), k ≠ ckey →
      alGet (es.foldl (replaceLinkEntry ckey) mi) k = alGet mi k := by
  induction es with
  | nil => intro mi k _; rfl
  | cons e0 es' ih =>
    intro mi k hk
    rw [List.foldl_cons, ih _ _ hk, alGet_rle_ne _ _ _ _ hk]

theorem id_map_rleFold (ckey : PyStr) (es : List (Option PyStr)) :
    ∀ (mi : CandMap) (k : PyStr),
      (alGet (es.foldl (replaceLinkEntry ckey) mi) k).map Cand.id =
        (alGet mi k).map Cand.id := by
  induction es with
  | nil => intro mi k; rfl
  | cons e0 es' ih =>
    intro mi k
    rw [List.foldl_cons, ih, id_map_rle]

theorem resolved_rleFold (ckey : PyStr) (es : List (Option PyStr)) :
    ∀ (mi : CandMap) (e : Option PyStr), resolvedEntry mi e →
      resolvedEntry (es.foldl (replaceLinkEntry ckey) mi) e := by
  induction es with
  | nil => intro mi e h; exact h
  | cons e0 es' ih =>
    intro mi e h
    rw [List.foldl_cons]
    exact ih _ _ (resolved_rle _ _ _ _ h)

theorem noEmptyIds_rleFold (ckey : PyStr) (es : List (Option PyStr)) :
    ∀ mi : CandMap, noEmptyIds mi →
      noEmptyIds (es.foldl (replaceLinkEntry ckey) mi) := by
  induction es with
  | nil => intro mi h; exact h
  | cons e0 es' ih =>
    intro mi h
    rw [List.foldl_cons]
    exact ih _ (noEmptyIds_rle _ _ _ h)

/-- The inner loop of `replace_links` on one surviving candidate: folding the
entry rewrite over a snapshot of its link set leaves the candidate present
with its id unchanged, and every remaining link entry resolved (either `None`
or the truthy id of a candidate still present). -/
theorem rleFold_links (ckey : PyStr) (es : List (Option PyStr)) :
    ∀ (mi : CandMap) (ci : Cand),
      alGet mi ckey = some ci →
      noEmptyIds mi →
      (∀ e ∈ ci.links, e ∈ es ∨ resolvedEntry mi e) →
      ∃ cf, alGet (es.foldl (replaceLinkEntry ckey) mi) ckey = some cf ∧
        cf.id = ci.id ∧
        ∀ e ∈ cf.links,
          resolvedEntry (es.foldl (replaceLinkEntry ckey) mi) e := by
  induction es with
  | nil =>
    intro mi ci hget _ hlinks
    refine ⟨ci, hget, rfl, ?_⟩
    intro e he
    rcases hlinks e he with h | h
    · cases h
    · exact h
  | cons e0 es' ih =>
    intro mi ci hget hne hlinks
    rw [List.foldl_cons]
    cases e0 with
    | none =>
      have hstep : replaceLinkEntry ckey mi none =
          alModify mi ckey
            (fun c => { c with links := c.links.filter (fun e => e ≠ none) }) := rfl
      have hget' : alGet (replaceLinkEntry ckey mi none) ckey =
          some { ci with links := ci.links.filter (fun e => e ≠ none) } := by
        rw [hstep, alGet_alModify, if_pos rfl, hget]
        rfl
      have hne' : noEmptyIds (replaceLinkEntry ckey mi none) :=
        noEmptyIds_rle _ _ _ hne
      have hlinks' : ∀ e ∈ ({ ci with
          links := ci.links.filter (fun e => e ≠ none) } : Cand).links,
          e ∈ es' ∨ resolvedEntry (replaceLinkEntry ckey mi none) e := by
        intro e he
        have hmem := List.mem_filter.mp he
        have henn : e ≠ none := by simpa using hmem.2
        rcases hlinks e hmem.1 with h | h
        · rcases List.mem_cons.mp h with h | h
          · exact absurd h henn
          · exact Or.inl h
        · exact Or.inr (resolved_rle _ _ _ _ h)
      rcases ih _ _ hget' hne' hlinks' with ⟨cf, h1, h2, h3⟩
      exact ⟨cf, h1, by rw [h2], h3⟩
    | some nm =>
      cases h2 : alGet mi nm with
      | none =>
        have hstep : replaceLinkEntry ckey mi (some nm) =
            alModify mi ckey
              (fun c => { c with
                links := c.links.filter (fun e => e ≠ some nm) }) := by
          simp only [replaceLinkEntry, h2]
        have hget' : alGet (replaceLinkEntry ckey mi (some nm)) ckey =
            some { ci with links := ci.links.filter (fun e => e ≠ some nm) } := by
          rw [hstep, alGet_alModify, if_pos rfl, hget]
          rfl
        have hne' : noEmptyIds (replaceLinkEntry ckey mi (some nm)) :=
          noEmptyIds_rle _ _ _ hne
        have hlinks' : ∀ e ∈ ({ ci with
            links := ci.links.filter (fun e => e ≠ some nm) } : Cand).links,
            e ∈ es' ∨ resolvedEntry (replaceLinkEntry ckey mi (some nm)) e := by
          intro e he
          have hmem := List.mem_filter.mp he
          have henn : e ≠ some nm := by simpa using hmem.2
          rcases hlinks e hmem.1 with h | h
          · rcases List.mem_cons.mp h with h | h
            · exact absurd h henn
            · exact Or.inl h
          · exact Or.inr (resolved_rle _ _ _ _ h)
        rcases ih _ _ hget' hne' hlinks' with ⟨cf, ha, hb, hc⟩
        exact ⟨cf, ha, by rw [hb], hc⟩
      | some c2 =>
        have hstep : replaceLinkEntry ckey mi (some nm) =
            alModify mi ckey
              (fun c => { c with
                links := setInsert c2.id
                  (c.links.filter (fun e => e ≠ some nm)) }) := by
          simp only [replaceLinkEntry, h2]
        have hget' : alGet (replaceLinkEntry ckey mi (some nm)) ckey =
            some ({ ci with links := setInsert c2.id (ci.links.filter (fun e => e ≠ some nm)) } : Cand) := by
          rw [hstep, alGet_alModify, if_pos rfl, hget]
          rfl
        have hne' : noEmptyIds (replaceLinkEntry ckey mi (some nm)) :=
          noEmptyIds_rle _ _ _ hne
        have hlinks' : ∀ e ∈ ({ ci with links := setInsert c2.id (ci.links.filter (fun e => e ≠ some nm)) } : Cand).links,
            e ∈ es' ∨ resolvedEntry (replaceLinkEntry ckey mi (some nm)) e := by
          intro e he
          rcases (mem_setInsert _ _ _).mp he with he | he
          · right
            by_cases htr : truthyId c2.id = true
            · right
              have hmap := id_map_rle ckey mi (some nm) nm
              rw [h2] at hmap
              rcases Option.map_eq_some'.mp hmap with ⟨c2', hc2', hid⟩
              exact ⟨nm, c2', hc2', by rw [hid, htr],
                by rw [he, hid]⟩
            · left
              have hfalse : truthyId c2.id = false :=
                Bool.eq_false_iff.mpr htr
              rcases truthyId_false hfalse with hn | hn
              · rw [he, hn]
              · exact absurd hn (hne nm c2 h2)
          · have hmem := List.mem_filter.mp he
            have henn : e ≠ some nm := by simpa using hmem.2
            rcases hlinks e hmem.1 with h | h
            · rcases List.mem_cons.mp h with h | h
              · exact absurd h henn
              · exact Or.inl h
            · exact Or.inr (resolved_rle _ _ _ _ h)
        rcases ih _ _ hget' hne' hlinks' with ⟨cf, ha, hb, hc⟩
        exact ⟨cf, ha, by rw [hb], hc⟩

theorem resolved_alDel (mi : CandMap) (k0 : PyStr) (c0 : Cand)
    (hnd : (mi.map Prod.fst).Nodup)
    (hget : alGet mi k0 = some c0) (hf : truthyId c0.id = false)
    (e : Option PyStr) (h : resolvedEntry mi e) :
    resolvedEntry (alDel mi k0) e := by
  rcases h with h | ⟨k2, c2, hg, ht, he⟩
  · exact Or.inl h
  · right
    by_cases hk : k2 = k0
    · subst hk
      rw [hget] at hg
      injection hg with hg
      rw [hg] at hf
      rw [ht] at hf
      cases hf
    · refine ⟨k2, c2, ?_, ht, he⟩
      rw [alGet_alDel _ _ _ hnd, if_neg hk]
      exact hg

theorem noEmptyIds_alDel (mi : CandMap) (k0 : PyStr)
    (hnd : (mi.map Prod.fst).Nodup) (h : noEmptyIds mi) :
    noEmptyIds (alDel mi k0) := by
  intro k c hget
  rw [alGet_alDel _ _ _ hnd] at hget
  by_cases hk : k = k0
  · rw [if_pos hk] at hget
    cases hget
  · rw [if_neg hk] at hget
    exact h k c hget

/-- The outer fold of `replace_links` over the remaining snapshot keys: from a
state where unprocessed keys are untouched and processed keys already satisfy
the resolution invariant, the completed fold keeps exactly the truthy-id
candidates and leaves every surviving link entry resolved. -/
theorem replaceLinks_fold (m : CandMap) (rest : List PyStr) :
    ∀ mi : CandMap,
      (mi.map Prod.fst).Nodup →
      rest.Nodup →
      (∀ k ∈ rest, alGet mi k = alGet m k) →
      (∀ k ∈ rest, (alGet m k).isSome = true) →
      noEmptyIds mi →
      (∀ k c', alGet mi k = some c' → k ∉ rest →
        truthyId c'.id = true ∧ ∀ e ∈ c'.links, resolvedEntry mi e) →
      (∀ k c0, alGet m k = some c0 → truthyId c0.id = false → k ∉ rest →
        alGet mi k = none) →
      (∀ k c', alGet (rest.foldl replaceLinksStep mi) k = some c' →
        truthyId c'.id = true ∧
          ∀ e ∈ c'.links,
            resolvedEntry (rest.foldl replaceLinksStep mi) e) ∧
      (∀ k c0, alGet m k = some c0 → truthyId c0.id = false →
        alGet (rest.foldl replaceLinksStep mi) k = none) := by
  induction rest with
  | nil =>
    intro mi _ _ _ _ _ hP6 hP7
    refine ⟨?_, ?_⟩
    · intro k c' hget
      exact hP6 k c' hget (List.not_mem_nil k)
    · intro k c0 hg hf
      exact hP7 k c0 hg hf (List.not_mem_nil k)
  | cons k0 rest' ih =>
    intro mi hP1 hP2 hP3 hP4 hP5 hP6 hP7
    have hk0rest' : k0 ∉ rest' := (List.nodup_cons.mp hP2).1
    have hP2' : rest'.Nodup := (List.nodup_cons.mp hP2).2
    have hk0mem : k0 ∈ k0 :: rest' := List.mem_cons_self k0 rest'
    have hm0 : (alGet m k0).isSome = true := hP4 k0 hk0mem
    rcases Option.isSome_iff_exists.mp hm0 with ⟨c0, hc0⟩
    have hmi0 : alGet mi k0 = some c0 := by
      rw [hP3 k0 hk0mem, hc0]
    rw [List.foldl_cons]
    by_cases htr : truthyId c0.id = true
    · -- surviving candidate: the inner fold rewrites its link set
      have hstep : replaceLinksStep mi k0 =
          c0.links.foldl (replaceLinkEntry k0) mi := by
        simp only [replaceLinksStep, hmi0, htr, if_pos]
      rcases rleFold_links k0 c0.links mi c0 hmi0 hP5
          (fun e he => Or.inl he) with ⟨cf, hcf, hcfid, hcflinks⟩
      apply ih (replaceLinksStep mi k0)
      · rw [hstep, mapFst_rleFold]
        exact hP1
      · exact hP2'
      · intro k hk
        have hkne : k ≠ k0 := fun h => hk0rest' (h ▸ hk)
        rw [hstep, alGet_rleFold_ne _ _ _ _ hkne]
        exact hP3 k (List.mem_cons_of_mem _ hk)
      · intro k hk
        exact hP4 k (List.mem_cons_of_mem _ hk)
      · rw [hstep]
        exact noEmptyIds_rleFold _ _ _ hP5
      · intro k c' hget hk
        by_cases hkk : k = k0
        · subst hkk
          rw [hstep, hcf] at hget
          injection hget with hget
          subst hget
          refine ⟨by rw [hcfid]; exact htr, ?_⟩
          intro e he
          rw [hstep]
          exact hcflinks e he
        · have hget2 : alGet mi k = some c' := by
            rw [hstep, alGet_rleFold_ne _ _ _ _ hkk] at hget
            exact hget
          have hknot : k ∉ k0 :: rest' := by
            intro hc
            rcases List.mem_cons.mp hc with hc | hc
            · exact hkk hc
            · exact hk hc
          rcases hP6 k c' hget2 hknot with ⟨ht, hres⟩
          refine ⟨ht, ?_⟩
          intro e he
          rw [hstep]
          exact resolved_rleFold _ _ _ _ (hres e he)
      · intro k c1 hg hf hk
        by_cases hkk : k = k0
        · subst hkk
          rw [hc0] at hg
          injection hg with hg
          rw [← hg] at hf
          rw [htr] at hf
          cases hf
        · have hknot : k ∉ k0 :: rest' := by
            intro hc
            rcases List.mem_cons.mp hc with hc | hc
            · exact hkk hc
            · exact hk hc
          rw [hstep, alGet_rleFold_ne _ _ _ _ hkk]
          exact hP7 k c1 hg hf hknot
    · -- unresolved candidate: deleted
      have hf : truthyId c0.id = false := Bool.eq_false_iff.mpr htr
      have hstep : replaceLinksStep mi k0 = alDel mi k0 := by
        simp only [replaceLinksStep, hmi0, hf]
        rfl
      apply ih (replaceLinksStep mi k0)
      · rw [hstep]
        exact nodup_alDel _ _ hP1
      · exact hP2'
      · intro k hk
        have hkne : k ≠ k0 := fun h => hk0rest' (h ▸ hk)
        rw [hstep, alGet_alDel _ _ _ hP1, if_neg hkne]
        exact hP3 k (List.mem_cons_of_mem _ hk)
      · intro k hk
        exact hP4 k (List.mem_cons_of_mem _ hk)
      · rw [hstep]
        exact noEmptyIds_alDel _ _ hP1 hP5
      · intro k c' hget hk
        rw [hstep, alGet_alDel _ _ _ hP1] at hget
        by_cases hkk : k = k0
        · rw [if_pos hkk] at hget
          cases hget
        · rw [if_neg hkk] at hget
          have hknot : k ∉ k0 :: rest' := by
            intro hc
            rcases List.mem_cons.mp hc with hc | hc
            · exact hkk hc
            · exact hk hc
          rcases hP6 k c' hget hknot with ⟨ht, hres⟩
          refine ⟨ht, ?_⟩
          intro e he
          rw [hstep]
          exact resolved_alDel _ _ _ hP1 hmi0 hf e (hres e he)
      · intro k c1 hg hf1 hk
        rw [hstep, alGet_alDel _ _ _ hP1]
        by_cases hkk : k = k0
        · rw [if_pos hkk]
        · rw [if_neg hkk]
          have hknot : k ∉ k0 :: rest' := by
            intro hc
            rcases List.mem_cons.mp hc with hc | hc
            · exact hkk hc
            · exact hk hc
          exact hP7 k c1 hg hf1 hknot

theorem nodup_replaceLinksStep (mi : CandMap) (k0 : PyStr)
    (h : (mi.map Prod.fst).Nodup) :
    ((replaceLinksStep mi k0).map Prod.fst).Nodup := by
  cases hg : alGet mi k0 with
  | none => simpa [replaceLinksStep, hg] using h
  | some c0 =>
    by_cases htr : truthyId c0.id = true
    · have : replaceLinksStep mi k0 = c0.links.foldl (replaceLinkEntry k0) mi := by
        simp only [replaceLinksStep, hg, htr, if_pos]
      rw [this, mapFst_rleFold]
      exact h
    · have hf : truthyId c0.id = false := Bool.eq_false_iff.mpr htr
      have : replaceLinksStep mi k0 = alDel mi k0 := by
        simp only [replaceLinksStep, hg, hf]
        rfl
      rw [this]
      exact nodup_alDel _ _ h

theorem nodup_replaceLinksFold (ks : List PyStr) :
    ∀ mi : CandMap, (mi.map Prod.fst).Nodup →
      ((ks.foldl replaceLinksStep mi).map Prod.fst).Nodup := by
  induction ks with
  | nil => intro mi h; exact h
  | cons k0 ks' ih =>
    intro mi h
    rw [List.foldl_cons]
    exact ih _ (nodup_replaceLinksStep _ _ h)

/-! ## Claim C2: the Redirect Resolver and dangling references -/

/-- C2 counterexample: candidate `A` (resolved, id `1`) links to candidate `B`
(unresolved); in insertion order `A` is processed before `B` is deleted, so
`B`'s `None` id is inserted into `A`'s link set — a null entry survives the
pass, contradicting the claim for this candidate-map content and iteration
order. -/
theorem claim_C2_counterexample :
    (let candA : Cand :=
      { id := some (ofString "1"), inCount := 0, outCount := 0,
        links := [some (ofString "B")], url := [], name := ofString "A",
        normalName := [], normalWikiTitle := [], references := [] }
     let candB : Cand :=
      { id := none, inCount := 0, outCount := 0, links := [], url := [],
        name := ofString "B", normalName := [], normalWikiTitle := [],
        references := [] }
     let m : CandMap := [(ofString "A", candA), (ofString "B", candB)]
     (replaceLinks m).map Prod.fst = [ofString "A"] ∧
       (alGet (replaceLinks m) (ofString "A")).map Cand.links =
         some [none]) := by
  decide

/-- C2 amended: after the pass, every surviving candidate has a truthy id and
every candidate whose id was falsy has been removed; every member of a
surviving candidate's links set is either the id of a (possibly the same)
surviving candidate or `None` — a raw name reference never survives, but a
link to an unresolved candidate that is processed after the linking candidate
is replaced by `None` instead of being dropped. -/
theorem claim_C2 (m : CandMap)
    (hnd : (m.map Prod.fst).Nodup)
    (hid : ∀ p ∈ m, p.2.id ≠ some []) :
    (∀ p ∈ replaceLinks m, truthyId p.2.id = true) ∧
    (∀ p ∈ m, truthyId p.2.id = false → alGet (replaceLinks m) p.1 = none) ∧
    (∀ p ∈ replaceLinks m, ∀ e ∈ p.2.links,
      e = none ∨ ∃ q ∈ replaceLinks m, e = q.2.id) := by
  have hP5 : noEmptyIds m := fun k c hget => hid (k, c) (mem_of_alGet hget)
  have hP6 : ∀ k c', alGet m k = some c' → k ∉ m.map Prod.fst →
      truthyId c'.id = true ∧ ∀ e ∈ c'.links, resolvedEntry m e := by
    intro k c' hget hk
    exact absurd ((alGet_isSome_iff_mem m k).mp (by rw [hget]; rfl)) hk
  have hP7 : ∀ k c0, alGet m k = some c0 → truthyId c0.id = false →
      k ∉ m.map Prod.fst → alGet m k = none := by
    intro k c0 hget _ hk
    exact absurd ((alGet_isSome_iff_mem m k).mp (by rw [hget]; rfl)) hk
  obtain ⟨hA, hB⟩ := replaceLinks_fold m (m.map Prod.fst) m hnd hnd
    (fun k _ => rfl) (fun k hk => (alGet_isSome_iff_mem m k).mpr hk)
    hP5 hP6 hP7
  have hndf : ((replaceLinks m).map Prod.fst).Nodup :=
    nodup_replaceLinksFold _ _ hnd
  refine ⟨?_, ?_, ?_⟩
  · intro p hp
    exact (hA p.1 p.2 (alGet_of_mem hndf hp)).1
  · intro p hp hf
    exact hB p.1 p.2 (alGet_of_mem hnd hp) hf
  · intro p hp e he
    rcases (hA p.1 p.2 (alGet_of_mem hndf hp)).2 e he with h | ⟨k2, c2, hg, _, heq⟩
    · exact Or.inl h
    · exact Or.inr ⟨(k2, c2), mem_of_alGet hg, heq⟩

/-- C2 witness: on a concrete two-candidate map (unresolved `B` first in
insertion order, resolved `A` second), the pass removes `B` and the amended
invariant instantiates. -/
theorem claim_C2_witness :
    alGet (replaceLinks
      [(ofString "B",
        { id := none, inCount := 0, outCount := 0, links := [], url := [],
          name := ofString "B", normalName := [], normalWikiTitle := [],
          references := [] }),
       (ofString "A",
        { id := some (ofString "1"), inCount := 0, outCount := 0,
          links := [some (ofString "B")], url := [], name := ofString "A",
          normalName := [], normalWikiTitle := [], references := [] })])
      (ofString "B") = none :=
  (claim_C2 _ (by decide) (by decide)).2.1
    (ofString "B",
      { id := none, inCount := 0, outCount := 0, links := [], url := [],
        name := ofString "B", normalName := [], normalWikiTitle := [],
        references := [] })
    (by decide) (by decide)

/-! ## Round-trip machinery for the exporter and companion parser (claim C4) -/

theorem list_isEmpty_false {α : Type} {l : List α} (h : l ≠ []) :
    l.isEmpty = false := by
  cases l with
  | nil => exact absurd rfl h
  | cons a as => rfl

theorem splitOnChar_not_mem {sep : Char} {f : PyStr} (h : sep ∉ f) :
    splitOnChar sep f = [f] := by
  induction f with
  | nil => rfl
  | cons c cs ih =>
    have hc : ¬(c = sep) := fun hh => h (hh ▸ List.mem_cons_self c cs)
    have hcs : sep ∉ cs := fun hh => h (List.mem_cons_of_mem c hh)
    simp only [splitOnChar, hc, ite_false, ih hcs]

theorem splitOnChar_append {sep : Char} {f rest : PyStr} (h : sep ∉ f) :
    splitOnChar sep (f ++ sep :: rest) = f :: splitOnChar sep rest := by
  induction f with
  | nil =>
    simp only [List.nil_append, splitOnChar, if_pos]
  | cons c cs ih =>
    have hc : ¬(c = sep) := fun hh => h (hh ▸ List.mem_cons_self c cs)
    have hcs : sep ∉ cs := fun hh => h (List.mem_cons_of_mem c hh)
    simp only [List.cons_append, splitOnChar, hc, ite_false, List.append_eq,
      ih hcs]

theorem splitOnChar_ne_nil (sep : Char) (s : PyStr) :
    splitOnChar sep s ≠ [] := by
  cases s with
  | nil => simp [splitOnChar]
  | cons c cs =>
    simp only [splitOnChar]
    by_cases hc : c = sep
    · simp [hc]
    · simp only [hc, ite_false]
      cases splitOnChar sep cs <;> simp

theorem splitOnChar_intercalateChar (sep : Char) :
    ∀ fs : List PyStr, fs ≠ [] → (∀ f ∈ fs, sep ∉ f) →
      splitOnChar sep (intercalateChar sep fs) = fs := by
  intro fs
  induction fs with
  | nil => intro h; exact absurd rfl h
  | cons f fs' ih =>
    intro _ hmem
    cases fs' with
    | nil =>
      exact splitOnChar_not_mem (hmem f (List.mem_cons_self f []))
    | cons f2 fs'' =>
      have h1 : intercalateChar sep (f :: f2 :: fs'') =
          f ++ sep :: intercalateChar sep (f2 :: fs'') := rfl
      rw [h1, splitOnChar_append (hmem f (List.mem_cons_self _ _))]
      rw [ih (by simp) (fun g hg => hmem g (List.mem_cons_of_mem f hg))]

theorem partitionChar_concat {sep : Char} (pre rest : PyStr)
    (h : sep ∉ pre) : partitionChar sep (pre ++ sep :: rest) = (pre, rest) := by
  induction pre with
  | nil =>
    simp only [List.nil_append, partitionChar, if_pos]
  | cons c cs ih =>
    have hc : ¬(c = sep) := fun hh => h (hh ▸ List.mem_cons_self c cs)
    have hcs : sep ∉ cs := fun hh => h (List.mem_cons_of_mem c hh)
    simp only [List.cons_append, partitionChar, hc, ite_false, List.append_eq,
      ih hcs]

theorem dropWhile_append_ne_nil {p : Char → Bool} {c : Char} (xs : PyStr)
    (h : p c = false) : (xs ++ [c]).dropWhile p ≠ [] := by
  induction xs with
  | nil => simp [List.dropWhile, h]
  | cons x xs' ih =>
    simp only [List.cons_append, List.dropWhile]
    by_cases hx : p x = true
    · simpa [hx] using ih
    · have hx' : p x = false := Bool.eq_false_iff.mpr hx
      simp [hx']

theorem stripBoth_head_ne_nil (p : Char → Bool) (c : Char) (s : PyStr)
    (h : p c = false) : stripBoth p (c :: s) ≠ [] := by
  unfold stripBoth
  have h1 : (c :: s).dropWhile p = c :: s := by
    simp [List.dropWhile, h]
  rw [h1]
  have h2 : (c :: s).reverse = s.reverse ++ [c] := by simp
  rw [h2]
  intro hc
  exact dropWhile_append_ne_nil s.reverse h (by simpa using hc)

theorem stripBoth_cons_of_pos (p : Char → Bool) (c : Char) (s : PyStr)
    (h : p c = true) : stripBoth p (c :: s) = stripBoth p s := by
  unfold stripBoth
  simp [List.dropWhile, h]

theorem stripBoth_wrap (p : Char → Bool) (c1 c2 : Char) (mid : PyStr)
    (h1 : p c1 = false) (h2 : p c2 = false) :
    stripBoth p (c1 :: (mid ++ [c2])) = c1 :: (mid ++ [c2]) := by
  unfold stripBoth
  have ha : (c1 :: (mid ++ [c2])).dropWhile p = c1 :: (mid ++ [c2]) := by
    simp [List.dropWhile, h1]
  rw [ha]
  have hb : (c1 :: (mid ++ [c2])).reverse = c2 :: (mid.reverse ++ [c1]) := by
    simp
  rw [hb]
  have hc : (c2 :: (mid.reverse ++ [c1])).dropWhile p =
      c2 :: (mid.reverse ++ [c1]) := by
    simp [List.dropWhile, h2]
  rw [hc, ← hb, List.reverse_reverse]

theorem stripBoth_unwrap (p : Char → Bool) (a b c1 c2 : Char) (mid : PyStr)
    (ha : p a = true) (hb : p b = true) (h1 : p c1 = false)
    (h2 : p c2 = false) :
    stripBoth p (a :: ((c1 :: (mid ++ [c2])) ++ [b])) =
      c1 :: (mid ++ [c2]) := by
  rw [stripBoth_cons_of_pos p a _ ha]
  unfold stripBoth
  have hfront : ((c1 :: (mid ++ [c2])) ++ [b]).dropWhile p =
      (c1 :: (mid ++ [c2])) ++ [b] := by
    simp [List.dropWhile, h1]
  rw [hfront]
  have hrev : (((c1 :: (mid ++ [c2])) ++ [b]) : PyStr).reverse =
      b :: (c2 :: (mid.reverse ++ [c1])) := by
    simp
  rw [hrev]
  have hback : (b :: (c2 :: (mid.reverse ++ [c1]))).dropWhile p =
      c2 :: (mid.reverse ++ [c1]) := by
    simp [List.dropWhile, hb, h2]
  rw [hback]
  have : (c2 :: (mid.reverse ++ [c1])).reverse = c1 :: (mid ++ [c2]) := by
    simp
  rw [this]

theorem isDigit_digitChar (d : Nat) : (digitChar d).isDigit = true := by
  unfold digitChar
  split <;> decide

theorem digitVal_digitChar {d : Nat} (h : d < 10) :
    (digitChar d).toNat - 48 = d := by
  interval_cases d <;> decide

theorem natCharsF_digits :
    ∀ (fuel n : Nat), n < fuel → ∀ ch ∈ natCharsF fuel n, ch.isDigit = true := by
  intro fuel
  induction fuel with
  | zero => intro n h; omega
  | succ fuel ih =>
    intro n hn ch hch
    by_cases h10 : n < 10
    · simp only [natCharsF, h10, if_pos] at hch
      rcases List.mem_singleton.mp hch with rfl
      exact isDigit_digitChar n
    · simp only [natCharsF, h10, ite_false] at hch
      rcases List.mem_append.mp hch with hm | hm
      · have hdiv : n / 10 < fuel := by
          have : n / 10 < n := Nat.div_lt_self (by omega) (by omega)
          omega
        exact ih (n / 10) hdiv ch hm
      · rcases List.mem_singleton.mp hm with rfl
        exact isDigit_digitChar (n % 10)

theorem natChars_digits (n : Nat) : ∀ ch ∈ natChars n, ch.isDigit = true :=
  natCharsF_digits (n + 1) n (by omega)

theorem natCharsF_ne_nil :
    ∀ (fuel n : Nat), n < fuel → natCharsF fuel n ≠ [] := by
  intro fuel
  induction fuel with
  | zero => intro n h; omega
  | succ fuel _ =>
    intro n _
    by_cases h10 : n < 10
    · simp [natCharsF, h10]
    · simp [natCharsF, h10]

theorem natChars_ne_nil (n : Nat) : natChars n ≠ [] :=
  natCharsF_ne_nil (n + 1) n (by omega)

theorem foldl_digits_append (s : PyStr) (c : Char) :
    (s ++ [c]).foldl (fun a ch => 10 * a + (ch.toNat - 48)) 0 =
      10 * s.foldl (fun a ch => 10 * a + (ch.toNat - 48)) 0 + (c.toNat - 48) := by
  rw [List.foldl_append]
  rfl

theorem natCharsF_val :
    ∀ (fuel n : Nat), n < fuel →
      (natCharsF fuel n).foldl (fun a ch => 10 * a + (ch.toNat - 48)) 0 = n := by
  intro fuel
  induction fuel with
  | zero => intro n h; omega
  | succ fuel ih =>
    intro n hn
    by_cases h10 : n < 10
    · simp only [natCharsF, h10, if_pos, List.foldl]
      have := digitVal_digitChar h10
      omega
    · simp only [natCharsF, h10, ite_false]
      rw [foldl_digits_append]
      have hdiv : n / 10 < fuel := by
        have : n / 10 < n := Nat.div_lt_self (by omega) (by omega)
        omega
      rw [ih (n / 10) hdiv]
      have hm : n % 10 < 10 := Nat.mod_lt _ (by omega)
      have := digitVal_digitChar hm
      have := Nat.div_add_mod n 10
      omega

theorem parseDigits_natChars (n : Nat) : parseDigits (natChars n) = some n := by
  unfold parseDigits
  have h1 : (natChars n).isEmpty = false := list_isEmpty_false (natChars_ne_nil n)
  have h2 : (natChars n).all Char.isDigit = true :=
    List.all_eq_true.mpr (fun ch hch => natChars_digits n ch hch)
  rw [h1, h2]
  simp only [Bool.not_false, Bool.true_and, if_pos]
  rw [show natChars n = natCharsF (n + 1) n from rfl,
    natCharsF_val (n + 1) n (by omega)]

theorem pyInt_natChars (n : Nat) : pyInt (natChars n) = some (n : Int) := by
  have hd := natChars_digits n
  have hne := natChars_ne_nil n
  cases hc : natChars n with
  | nil => exact absurd hc hne
  | cons c cs =>
    have hcd : c.isDigit = true := by
      apply hd
      rw [hc]
      exact List.mem_cons_self c cs
    have h1 : c ≠ '-' := by
      intro hh
      rw [hh] at hcd
      exact absurd hcd (by decide)
    have h2 : c ≠ '+' := by
      intro hh
      rw [hh] at hcd
      exact absurd hcd (by decide)
    have hparse : parseDigits (c :: cs) = some n := by
      rw [← hc]
      exact parseDigits_natChars n
    unfold pyInt
    split
    · rename_i rest heq
      injection heq with heq
      exact absurd heq h1
    · rename_i rest heq
      injection heq with heq
      exact absurd heq h2
    · simp [hparse]

theorem isPySpace_of_isDigit {c : Char} (h : c.isDigit = true) :
    isPySpace c = false := by
  have hne : ∀ x : Char, x.isDigit = false → decide (c = x) = false := by
    intro x hx
    apply decide_eq_false
    intro he
    rw [he, hx] at h
    cases h
  unfold isPySpace
  rw [hne ' ' (by decide), hne '\t' (by decide), hne '\n' (by decide),
    hne '\x0d' (by decide), hne '\x0b' (by decide), hne '\x0c' (by decide)]
  rfl

theorem stripBoth_eq_self_of_all (p : Char → Bool) (s : PyStr)
    (h : ∀ c ∈ s, p c = false) : stripBoth p s = s := by
  unfold stripBoth
  have h1 : s.dropWhile p = s := by
    cases s with
    | nil => rfl
    | cons c cs => simp [List.dropWhile, h c (List.mem_cons_self c cs)]
  rw [h1]
  have h2 : s.reverse.dropWhile p = s.reverse := by
    cases hs : s.reverse with
    | nil => rfl
    | cons c cs =>
      have hc : c ∈ s := by
        rw [← List.mem_reverse, hs]
        exact List.mem_cons_self c cs
      simp [List.dropWhile, h c hc]
  rw [h2, List.reverse_reverse]

theorem pyStrip_natChars (n : Nat) : pyStrip (natChars n) = natChars n :=
  stripBoth_eq_self_of_all _ _
    (fun c hc => isPySpace_of_isDigit (natChars_digits n c hc))

theorem stripBoth_quotes (p : Char → Bool) (q : Char) (l : PyStr)
    (hq : p q = true) (hl : l ≠ []) (hall : ∀ c ∈ l, p c = false) :
    stripBoth p (q :: (l ++ [q])) = l := by
  rw [stripBoth_cons_of_pos p q _ hq]
  unfold stripBoth
  obtain ⟨d, rest, rfl⟩ : ∃ d rest, l = d :: rest := by
    cases l with
    | nil => exact absurd rfl hl
    | cons d rest => exact ⟨d, rest, rfl⟩
  have h1 : ((d :: rest) ++ [q]).dropWhile p = (d :: rest) ++ [q] := by
    simp [List.dropWhile, hall d (List.mem_cons_self d rest)]
  rw [h1]
  have h2 : (((d :: rest) ++ [q]) : PyStr).reverse =
      q :: (d :: rest).reverse := by simp
  rw [h2]
  have h3 : (q :: (d :: rest).reverse).dropWhile p =
      ((d :: rest).reverse).dropWhile p := by
    simp [List.dropWhile, hq]
  rw [h3]
  cases hr : (d :: rest).reverse with
  | nil => exact absurd hr (by simp)
  | cons e es =>
    have he : e ∈ d :: rest := by
      rw [← List.mem_reverse, hr]
      exact List.mem_cons_self e es
    have h4 : (e :: es).dropWhile p = e :: es := by
      simp [List.dropWhile, hall e he]
    rw [h4, ← hr, List.reverse_reverse]

theorem pcStep_cond (c0 : Char) (rest : PyStr) (hC : c0 ≠ 'C')
    (hsp : isPySpace c0 = false) :
    ¬((c0 :: rest) = ofString "CANDIDATE" ∨
      (pyStrip (c0 :: rest)).isEmpty = true) := by
  rintro (h | h)
  · have hh : c0 = 'C' := by
      have := congrArg (fun l => l.headD ' ') h
      simpa [ofString] using this
    exact hC hh
  · exact stripBoth_head_ne_nil isPySpace c0 rest hsp (List.isEmpty_iff.mp h)

theorem pcStep_skip (st : PCand) : pcStep st (ofString "CANDIDATE") = .ok st := by
  unfold pcStep
  rw [if_pos (Or.inl rfl)]

theorem pcStep_id (st : PCand) (i : PyStr) (histrip : pyStrip i = i) :
    pcStep st (ofString "id:" ++ i) = .ok { st with id := i } := by
  have hne : ¬(ofString "id:" ++ i = ofString "CANDIDATE" ∨
      (pyStrip (ofString "id:" ++ i)).isEmpty = true) :=
    pcStep_cond 'i' ('d' :: ':' :: i) (by decide) (by decide)
  have hkv : partitionChar ':' (ofString "id:" ++ i) = (ofString "id", i) :=
    partitionChar_concat (ofString "id") i (by decide)
  have hkey : pyLower (pyStrip (ofString "id")) = ofString "id" := by decide
  unfold pcStep
  rw [if_neg hne]
  simp [hkv, hkey, histrip]

theorem pcStep_name (st : PCand) (v : PyStr) :
    pcStep st (ofString "name:" ++ v) = .ok { st with name := pyStrip v } := by
  have hne : ¬(ofString "name:" ++ v = ofString "CANDIDATE" ∨
      (pyStrip (ofString "name:" ++ v)).isEmpty = true) :=
    pcStep_cond 'n' ('a' :: 'm' :: 'e' :: ':' :: v) (by decide) (by decide)
  have hkv : partitionChar ':' (ofString "name:" ++ v) = (ofString "name", v) :=
    partitionChar_concat (ofString "name") v (by decide)
  have hkey : pyLower (pyStrip (ofString "name")) = ofString "name" := by decide
  have hd1 : ¬(ofString "name" = ofString "id") := by decide
  have hd2 : ¬(ofString "name" = ofString "incount") := by decide
  have hd3 : ¬(ofString "name" = ofString "outcount") := by decide
  have hd4 : ¬(ofString "name" = ofString "links") := by decide
  have hd5 : ¬(ofString "name" = ofString "url") := by decide
  unfold pcStep
  rw [if_neg hne]
  simp [hkv, hkey, hd1, hd2, hd3, hd4, hd5]

theorem pcStep_url (st : PCand) (v : PyStr) :
    pcStep st (ofString "url:" ++ v) = .ok { st with url := pyStrip v } := by
  have hne : ¬(ofString "url:" ++ v = ofString "CANDIDATE" ∨
      (pyStrip (ofString "url:" ++ v)).isEmpty = true) :=
    pcStep_cond 'u' ('r' :: 'l' :: ':' :: v) (by decide) (by decide)
  have hkv : partitionChar ':' (ofString "url:" ++ v) = (ofString "url", v) :=
    partitionChar_concat (ofString "url") v (by decide)
  have hkey : pyLower (pyStrip (ofString "url")) = ofString "url" := by decide
  have hd1 : ¬(ofString "url" = ofString "id") := by decide
  have hd2 : ¬(ofString "url" = ofString "incount") := by decide
  have hd3 : ¬(ofString "url" = ofString "outcount") := by decide
  have hd4 : ¬(ofString "url" = ofString "links") := by decide
  unfold pcStep
  rw [if_neg hne]
  simp [hkv, hkey, hd1, hd2, hd3, hd4]

theorem pcStep_normalName (st : PCand) (v : PyStr) :
    pcStep st (ofString "normalName:" ++ v) =
      .ok { st with normal_name := pyStrip v } := by
  have hne : ¬(ofString "normalName:" ++ v = ofString "CANDIDATE" ∨
      (pyStrip (ofString "normalName:" ++ v)).isEmpty = true) :=
    pcStep_cond 'n'
      ('o' :: 'r' :: 'm' :: 'a' :: 'l' :: 'N' :: 'a' :: 'm' :: 'e' :: ':' :: v)
      (by decide) (by decide)
  have hkv : partitionChar ':' (ofString "normalName:" ++ v) =
      (ofString "normalName", v) :=
    partitionChar_concat (ofString "normalName") v (by decide)
  have hkey : pyLower (pyStrip (ofString "normalName")) =
      ofString "normalname" := by decide
  have hd1 : ¬(ofString "normalname" = ofString "id") := by decide
  have hd2 : ¬(ofString "normalname" = ofString "incount") := by decide
  have hd3 : ¬(ofString "normalname" = ofString "outcount") := by decide
  have hd4 : ¬(ofString "normalname" = ofString "links") := by decide
  have hd5 : ¬(ofString "normalname" = ofString "url") := by decide
  have hd6 : ¬(ofString "normalname" = ofString "name") := by decide
  unfold pcStep
  rw [if_neg hne]
  simp [hkv, hkey, hd1, hd2, hd3, hd4, hd5, hd6]

theorem pcStep_nwt (st : PCand) (v : PyStr) :
    pcStep st (ofString "normalwikititle:" ++ v) =
      .ok { st with normal_wiki_title :=
        pyRStripChars (ofString ")") (pyStrip v) } := by
  have hne : ¬(ofString "normalwikititle:" ++ v = ofString "CANDIDATE" ∨
      (pyStrip (ofString "normalwikititle:" ++ v)).isEmpty = true) :=
    pcStep_cond 'n'
      ('o' :: 'r' :: 'm' :: 'a' :: 'l' :: 'w' :: 'i' :: 'k' :: 'i' :: 't' ::
        'i' :: 't' :: 'l' :: 'e' :: ':' :: v)
      (by decide) (by decide)
  have hkv : partitionChar ':' (ofString "normalwikititle:" ++ v) =
      (ofString "normalwikititle", v) :=
    partitionChar_concat (ofString "normalwikititle") v (by decide)
  have hkey : pyLower (pyStrip (ofString "normalwikititle")) =
      ofString "normalwikititle" := by decide
  have hd1 : ¬(ofString "normalwikititle" = ofString "id") := by decide
  have hd2 : ¬(ofString "normalwikititle" = ofString "incount") := by decide
  have hd3 : ¬(ofString "normalwikititle" = ofString "outcount") := by decide
  have hd4 : ¬(ofString "normalwikititle" = ofString "links") := by decide
  have hd5 : ¬(ofString "normalwikititle" = ofString "url") := by decide
  have hd6 : ¬(ofString "normalwikititle" = ofString "name") := by decide
  have hd7 : ¬(ofString "normalwikititle" = ofString "normalname") := by decide
  unfold pcStep
  rw [if_neg hne]
  simp [hkv, hkey, hd1, hd2, hd3, hd4, hd5, hd6, hd7]

theorem pcStep_inCount (st : PCand) (n : Nat) :
    pcStep st (ofString "inCount:" ++ natChars n) =
      .ok { st with in_count := (n : Int) } := by
  have hne : ¬(ofString "inCount:" ++ natChars n = ofString "CANDIDATE" ∨
      (pyStrip (ofString "inCount:" ++ natChars n)).isEmpty = true) :=
    pcStep_cond 'i'
      ('n' :: 'C' :: 'o' :: 'u' :: 'n' :: 't' :: ':' :: natChars n)
      (by decide) (by decide)
  have hkv : partitionChar ':' (ofString "inCount:" ++ natChars n) =
      (ofString "inCount", natChars n) :=
    partitionChar_concat (ofString "inCount") (natChars n) (by decide)
  have hkey : pyLower (pyStrip (ofString "inCount")) = ofString "incount" := by
    decide
  have hd1 : ¬(ofString "incount" = ofString "id") := by decide
  unfold pcStep
  rw [if_neg hne]
  simp [hkv, hkey, pyStrip_natChars, pyInt_natChars, hd1]

theorem pcStep_outCount (st : PCand) (n : Nat) :
    pcStep st (ofString "outCount:" ++ natChars n) =
      .ok { st with out_count := (n : Int) } := by
  have hne : ¬(ofString "outCount:" ++ natChars n = ofString "CANDIDATE" ∨
      (pyStrip (ofString "outCount:" ++ natChars n)).isEmpty = true) :=
    pcStep_cond 'o'
      ('u' :: 't' :: 'C' :: 'o' :: 'u' :: 'n' :: 't' :: ':' :: natChars n)
      (by decide) (by decide)
  have hkv : partitionChar ':' (ofString "outCount:" ++ natChars n) =
      (ofString "outCount", natChars n) :=
    partitionChar_concat (ofString "outCount") (natChars n) (by decide)
  have hkey : pyLower (pyStrip (ofString "outCount")) = ofString "outcount" := by
    decide
  have hd1 : ¬(ofString "outcount" = ofString "id") := by decide
  have hd2 : ¬(ofString "outcount" = ofString "incount") := by decide
  unfold pcStep
  rw [if_neg hne]
  simp [hkv, hkey, pyStrip_natChars, pyInt_natChars, hd1, hd2]

theorem quotedChain (ls' : List PyStr) :
    ∀ l0 : PyStr, ∃ body : PyStr,
      intercalateSep (ofString ", ")
          ((l0 :: ls').map (fun l => pyElemRepr (some l))) =
        '\'' :: (body ++ ['\'']) := by
  induction ls' with
  | nil => exact fun l0 => ⟨l0, rfl⟩
  | cons l1 ls'' ih =>
    intro l0
    rcases ih l1 with ⟨body', hbody⟩
    refine ⟨l0 ++ ['\''] ++ ofString ", " ++ ('\'' :: body'), ?_⟩
    have h1 : intercalateSep (ofString ", ")
        ((l0 :: l1 :: ls'').map (fun l => pyElemRepr (some l))) =
        pyElemRepr (some l0) ++ ofString ", " ++
          intercalateSep (ofString ", ")
            ((l1 :: ls'').map (fun l => pyElemRepr (some l))) := rfl
    rw [h1, hbody]
    simp [pyElemRepr]

theorem splitOnChar_interCommaSpace (qs : List PyStr) :
    ∀ q0 : PyStr, ',' ∉ q0 → (∀ q ∈ qs, ',' ∉ q) →
      splitOnChar ',' (intercalateSep (ofString ", ") (q0 :: qs)) =
        q0 :: qs.map (fun q => ' ' :: q) := by
  induction qs with
  | nil =>
    intro q0 h _
    exact splitOnChar_not_mem h
  | cons q1 qs' ih =>
    intro q0 h hq
    have h1 : intercalateSep (ofString ", ") (q0 :: q1 :: qs') =
        q0 ++ ',' :: (' ' :: intercalateSep (ofString ", ") (q1 :: qs')) := by
      have : intercalateSep (ofString ", ") (q0 :: q1 :: qs') =
          q0 ++ ofString ", " ++ intercalateSep (ofString ", ") (q1 :: qs') := rfl
      rw [this, List.append_assoc]
      rfl
    rw [h1, splitOnChar_append h]
    have hrec := ih q1 (hq q1 (List.mem_cons_self q1 qs'))
      (fun q hqq => hq q (List.mem_cons_of_mem _ hqq))
    have h2 : splitOnChar ','
        (' ' :: intercalateSep (ofString ", ") (q1 :: qs')) =
        (' ' :: q1) :: qs'.map (fun q => ' ' :: q) := by
      simp only [splitOnChar, show ¬(' ' = ',') by decide, ite_false, hrec]
    rw [h2]
    rfl

theorem pcStep_links (st : PCand) (ls : List PyStr) (hlne : ls ≠ [])
    (hld : ∀ l ∈ ls, l ≠ [] ∧ ∀ ch ∈ l, ch.isDigit = true) :
    pcStep st (ofString "links:" ++ pySetRepr (ls.map some)) =
      .ok { st with links := ls } := by
  obtain ⟨l0, ls', rfl⟩ : ∃ l0 ls', ls = l0 :: ls' := by
    cases ls with
    | nil => exact absurd rfl hlne
    | cons l0 ls' => exact ⟨l0, ls', rfl⟩
  have hrepr : pySetRepr ((l0 :: ls').map some) =
      '{' :: (intercalateSep (ofString ", ")
        (((l0 :: ls').map some).map pyElemRepr) ++ ['}']) := rfl
  have hmm : ((l0 :: ls').map some).map pyElemRepr =
      (l0 :: ls').map (fun l => pyElemRepr (some l)) := by
    rw [List.map_map]
    rfl
  rcases quotedChain ls' l0 with ⟨body, hbody⟩
  have hinner : intercalateSep (ofString ", ")
      (((l0 :: ls').map some).map pyElemRepr) = '\'' :: (body ++ ['\'']) := by
    rw [hmm, hbody]
  have hne : ¬(ofString "links:" ++ pySetRepr ((l0 :: ls').map some) =
      ofString "CANDIDATE" ∨
      (pyStrip (ofString "links:" ++ pySetRepr ((l0 :: ls').map some))).isEmpty
        = true) :=
    pcStep_cond 'l'
      ('i' :: 'n' :: 'k' :: 's' :: ':' :: pySetRepr ((l0 :: ls').map some))
      (by decide) (by decide)
  have hkv : partitionChar ':'
      (ofString "links:" ++ pySetRepr ((l0 :: ls').map some)) =
      (ofString "links", pySetRepr ((l0 :: ls').map some)) :=
    partitionChar_concat (ofString "links") _ (by decide)
  have hkey : pyLower (pyStrip (ofString "links")) = ofString "links" := by
    decide
  have hd1 : ¬(ofString "links" = ofString "id") := by decide
  have hd2 : ¬(ofString "links" = ofString "incount") := by decide
  have hd3 : ¬(ofString "links" = ofString "outcount") := by decide
  -- the value survives the whitespace strip
  have hvstrip : pyStrip (pySetRepr ((l0 :: ls').map some)) =
      pySetRepr ((l0 :: ls').map some) := by
    rw [hrepr, hinner]
    exact stripBoth_wrap isPySpace '{' '}' _ (by decide) (by decide)
  -- the braces strip exposes the quoted chain
  have hvbrace : pyStripChars (ofString "{} ")
      (pySetRepr ((l0 :: ls').map some)) = '\'' :: (body ++ ['\'']) := by
    rw [hrepr, hinner]
    exact stripBoth_unwrap _ '{' '}' '\'' '\'' body (by decide) (by decide)
      (by decide) (by decide)
  have hvne : ('\'' :: (body ++ ['\'']) : PyStr).isEmpty = false :=
    list_isEmpty_false (by simp)
  -- splitting the quoted chain on commas gives back the quoted pieces
  have hquoted : ∀ l ∈ l0 :: ls', (',' : Char) ∉ pyElemRepr (some l) := by
    intro l hl ch
    rcases List.mem_cons.mp ch with hh | hh
    · exact absurd hh.symm (by decide)
    · rcases List.mem_append.mp hh with hh | hh
      · have := (hld l hl).2 ',' hh
        exact absurd this (by decide)
      · rcases List.mem_singleton.mp hh with hh
        exact absurd hh (by decide)
  have hcontains : ∀ c : Char, c.isDigit = true →
      (ofString " '").contains c = false := by
    intro c hc
    have h1 : (' ' == c) = false := beq_eq_false_iff_ne.mpr
      (fun he => absurd (he ▸ hc) (by decide))
    have h2 : ('\'' == c) = false := beq_eq_false_iff_ne.mpr
      (fun he => absurd (he ▸ hc) (by decide))
    simp [ofString, List.contains, h1, h2]
    constructor
    · intro he
      rw [he] at h1
      simp at h1
    · intro he
      rw [he] at h2
      simp at h2
  have hstripq : ∀ l ∈ l0 :: ls',
      pyStripChars (ofString " '") (pyElemRepr (some l)) = l := by
    intro l hl
    exact stripBoth_quotes _ '\'' l (by decide) (hld l hl).1
      (fun c hc => hcontains c ((hld l hl).2 c hc))
  have hstripq2 : ∀ l ∈ l0 :: ls',
      pyStripChars (ofString " '") (' ' :: pyElemRepr (some l)) = l := by
    intro l hl
    have h0 : pyStripChars (ofString " '") (' ' :: pyElemRepr (some l)) =
        pyStripChars (ofString " '") (pyElemRepr (some l)) :=
      stripBoth_cons_of_pos _ ' ' _ (by decide)
    rw [h0]
    exact hstripq l hl
  have hv : pyStripChars (ofString "{} ")
      (pySetRepr ((l0 :: ls').map some)) =
      intercalateSep (ofString ", ")
        (((l0 :: ls').map some).map pyElemRepr) :=
    hvbrace.trans hinner.symm
  have hvne2 : (intercalateSep (ofString ", ")
      (((l0 :: ls').map some).map pyElemRepr)).isEmpty = false := by
    rw [hinner]
    rfl
  have hsplit : splitOnChar ',' (intercalateSep (ofString ", ")
      (((l0 :: ls').map some).map pyElemRepr)) =
      pyElemRepr (some l0) ::
        (ls'.map (fun l => pyElemRepr (some l))).map (fun q => ' ' :: q) := by
    rw [hmm]
    exact splitOnChar_interCommaSpace (ls'.map (fun l => pyElemRepr (some l)))
      (pyElemRepr (some l0)) (hquoted l0 (List.mem_cons_self _ _))
      (fun q hq => by
        rcases List.mem_map.mp hq with ⟨l, hl, rfl⟩
        exact hquoted l (List.mem_cons_of_mem _ hl))
  have hfilter : (pyElemRepr (some l0) ::
      (ls'.map (fun l => pyElemRepr (some l))).map (fun q => ' ' :: q)).filter
        (fun p => !(pyStrip p).isEmpty) =
      pyElemRepr (some l0) ::
        (ls'.map (fun l => pyElemRepr (some l))).map (fun q => ' ' :: q) := by
    apply List.filter_eq_self.mpr
    intro a ha
    rcases List.mem_cons.mp ha with rfl | ha
    · have : pyStrip (pyElemRepr (some l0)) ≠ [] :=
        stripBoth_head_ne_nil isPySpace '\'' (l0 ++ ['\'']) (by decide)
      simp [list_isEmpty_false this]
    · rcases List.mem_map.mp ha with ⟨q, hq, rfl⟩
      rcases List.mem_map.mp hq with ⟨l, _, rfl⟩
      have h0 : pyStrip (' ' :: pyElemRepr (some l)) =
          pyStrip (pyElemRepr (some l)) :=
        stripBoth_cons_of_pos _ ' ' _ (by decide)
      have : pyStrip (pyElemRepr (some l)) ≠ [] :=
        stripBoth_head_ne_nil isPySpace '\'' (l ++ ['\'']) (by decide)
      rw [h0]
      simp [list_isEmpty_false this]
  have hmapstrip : (pyElemRepr (some l0) ::
      (ls'.map (fun l => pyElemRepr (some l))).map (fun q => ' ' :: q)).map
        (pyStripChars (ofString " '")) = l0 :: ls' := by
    rw [List.map_cons, hstripq l0 (List.mem_cons_self _ _)]
    congr 1
    rw [List.map_map, List.map_map]
    have : ∀ l ∈ ls',
        ((pyStripChars (ofString " '") ∘ (fun q => ' ' :: q)) ∘
          (fun l => pyElemRepr (some l))) l = l := by
      intro l hl
      exact hstripq2 l (List.mem_cons_of_mem _ hl)
    calc ls'.map _ = ls'.map id := List.map_congr_left this
      _ = ls' := List.map_id ls'
  unfold pcStep
  rw [if_neg hne]
  simp only [hkv, hkey, hvstrip, hv, hvne2, hsplit, hfilter, hmapstrip,
    Bool.false_eq_true, ite_false]
  simp [hd1, hd2, hd3]

theorem foldlM_pcStep_ok {st st' : PCand} {a : PyStr} {l : List PyStr}
    (h : pcStep st a = .ok st') :
    List.foldlM pcStep st (a :: l) = List.foldlM pcStep st' l := by
  rw [List.foldlM_cons, h]
  rfl

theorem mem_intercalateSep {c : Char} {sep : PyStr} :
    ∀ qs : List PyStr, c ∈ intercalateSep sep qs →
      c ∈ sep ∨ ∃ q ∈ qs, c ∈ q := by
  intro qs
  induction qs with
  | nil => intro h; cases h
  | cons q qs' ih =>
    cases qs' with
    | nil =>
      intro h
      exact Or.inr ⟨q, List.mem_cons_self _ _, h⟩
    | cons q2 qs'' =>
      intro h
      have h1 : intercalateSep sep (q :: q2 :: qs'') =
          q ++ sep ++ intercalateSep sep (q2 :: qs'') := rfl
      rw [h1] at h
      rcases List.mem_append.mp h with h | h
      · rcases List.mem_append.mp h with h | h
        · exact Or.inr ⟨q, List.mem_cons_self _ _, h⟩
        · exact Or.inl h
      · rcases ih h with h | ⟨q3, hq3, hc3⟩
        · exact Or.inl h
        · exact Or.inr ⟨q3, List.mem_cons_of_mem _ hq3, hc3⟩

theorem tab_not_in_pySetRepr (ls : List PyStr)
    (hld : ∀ l ∈ ls, ∀ ch ∈ l, ch.isDigit = true) :
    ('\t' : Char) ∉ pySetRepr (ls.map some) := by
  cases ls with
  | nil =>
    intro h
    exact absurd h (by decide)
  | cons l0 ls' =>
    intro h
    have hrepr : pySetRepr ((l0 :: ls').map some) =
        '{' :: (intercalateSep (ofString ", ")
          (((l0 :: ls').map some).map pyElemRepr) ++ ['}']) := rfl
    rw [hrepr] at h
    rcases List.mem_cons.mp h with h | h
    · exact absurd h (by decide)
    rcases List.mem_append.mp h with h | h
    · rcases mem_intercalateSep _ h with h | ⟨q, hq, hc⟩
      · rcases List.mem_cons.mp h with h | h
        · exact absurd h (by decide)
        · rcases List.mem_singleton.mp h with h
          exact absurd h (by decide)
      · rw [List.map_map] at hq
        rcases List.mem_map.mp hq with ⟨l, hl, rfl⟩
        rcases List.mem_cons.mp hc with hc | hc
        · exact absurd hc (by decide)
        rcases List.mem_append.mp hc with hc | hc
        · have := hld l hl '\t' hc
          exact absurd this (by decide)
        · rcases List.mem_singleton.mp hc with hc
          exact absurd hc (by decide)
    · rcases List.mem_singleton.mp h with h
      exact absurd h (by decide)

theorem tab_not_in_natChars (n : Nat) : ('\t' : Char) ∉ natChars n := by
  intro h
  have := natChars_digits n '\t' h
  exact absurd this (by decide)

/-! ## Claim C4: export/parse round trip for a candidate line -/

/-- C4 counterexample: a candidate with an empty links set exports `links:set()`
and the companion parser reconstructs the one-element list `["set()"]`, not the
empty set — the round trip fails in exactly the case the claim includes. -/
theorem claim_C4_counterexample :
    (let c0 : Cand :=
      { id := some (ofString "5042"), inCount := 3, outCount := 4,
        links := [], url := ofString "u", name := ofString "X",
        normalName := ofString "x", normalWikiTitle := ofString "x",
        references := [] }
     c0.links = [] ∧
       (parseCandidate (exportCandidateLine c0)).map PCand.links =
         .ok [ofString "set()"]) := by
  decide

/-- C4 amended: for a candidate with a resolved, strip-stable, tab-free id, a
non-empty links set of non-empty digit strings, and tab-free display fields,
parsing the exported `CANDIDATE` line with the companion `Candidate` parser
reconstructs `id`, `in_count`, `out_count` and the links set exactly; the
empty-links case does not round-trip (see the counterexample). -/
theorem claim_C4 (c : Cand) (i : PyStr) (ls : List PyStr)
    (hi : c.id = some i) (histrip : pyStrip i = i) (hitab : ('\t' : Char) ∉ i)
    (hlinks : c.links = ls.map some) (hlne : ls ≠ [])
    (hld : ∀ l ∈ ls, l ≠ [] ∧ ∀ ch ∈ l, ch.isDigit = true)
    (hname : ('\t' : Char) ∉ c.name) (hurl : ('\t' : Char) ∉ c.url)
    (hnn : ('\t' : Char) ∉ c.normalName)
    (hnwt : ('\t' : Char) ∉ c.normalWikiTitle) :
    (parseCandidate (exportCandidateLine c)).map PCand.id = .ok i ∧
    (parseCandidate (exportCandidateLine c)).map PCand.in_count =
      .ok (c.inCount : Int) ∧
    (parseCandidate (exportCandidateLine c)).map PCand.out_count =
      .ok (c.outCount : Int) ∧
    (parseCandidate (exportCandidateLine c)).map PCand.links = .ok ls := by
  have hline : exportCandidateLine c = intercalateChar '\t'
      [ofString "CANDIDATE",
       ofString "id:" ++ i,
       ofString "name:" ++ c.name,
       ofString "inCount:" ++ natChars c.inCount,
       ofString "outCount:" ++ natChars c.outCount,
       ofString "links:" ++ pySetRepr (ls.map some),
       ofString "url:" ++ c.url,
       ofString "normalName:" ++ c.normalName,
       ofString "normalwikititle:" ++ c.normalWikiTitle] := by
    unfold exportCandidateLine
    rw [hi, hlinks]
    rfl
  have htabfree : ∀ f ∈
      [ofString "CANDIDATE",
       ofString "id:" ++ i,
       ofString "name:" ++ c.name,
       ofString "inCount:" ++ natChars c.inCount,
       ofString "outCount:" ++ natChars c.outCount,
       ofString "links:" ++ pySetRepr (ls.map some),
       ofString "url:" ++ c.url,
       ofString "normalName:" ++ c.normalName,
       ofString "normalwikititle:" ++ c.normalWikiTitle],
      ('\t' : Char) ∉ f := by
    intro f hf
    have hp : ∀ (pre : PyStr) (v : PyStr), ('\t' : Char) ∉ pre →
        ('\t' : Char) ∉ v → ('\t' : Char) ∉ pre ++ v := by
      intro pre v h1 h2 hmem
      rcases List.mem_append.mp hmem with h | h
      · exact h1 h
      · exact h2 h
    simp only [List.mem_cons, List.mem_singleton] at hf
    rcases hf with rfl | rfl | rfl | rfl | rfl | rfl | rfl | rfl | rfl | h
    · decide
    · exact hp _ _ (by decide) hitab
    · exact hp _ _ (by decide) hname
    · exact hp _ _ (by decide) (tab_not_in_natChars _)
    · exact hp _ _ (by decide) (tab_not_in_natChars _)
    · exact hp _ _ (by decide) (tab_not_in_pySetRepr ls (fun l hl => (hld l hl).2))
    · exact hp _ _ (by decide) hurl
    · exact hp _ _ (by decide) hnn
    · exact hp _ _ (by decide) hnwt
    · cases h
  have hsplit := splitOnChar_intercalateChar '\t' _ (by simp) htabfree
  have hparse : parseCandidate (exportCandidateLine c) =
      .ok { id := i, in_count := (c.inCount : Int),
            out_count := (c.outCount : Int), links := ls,
            url := pyStrip c.url, name := pyStrip c.name,
            normal_name := pyStrip c.normalName,
            normal_wiki_title :=
              pyRStripChars (ofString ")") (pyStrip c.normalWikiTitle) } := by
    unfold parseCandidate
    rw [hline, hsplit]
    rw [foldlM_pcStep_ok (pcStep_skip _),
      foldlM_pcStep_ok (pcStep_id _ _ histrip),
      foldlM_pcStep_ok (pcStep_name _ _),
      foldlM_pcStep_ok (pcStep_inCount _ _),
      foldlM_pcStep_ok (pcStep_outCount _ _),
      foldlM_pcStep_ok (pcStep_links _ _ hlne hld),
      foldlM_pcStep_ok (pcStep_url _ _),
      foldlM_pcStep_ok (pcStep_normalName _ _),
      foldlM_pcStep_ok (pcStep_nwt _ _)]
    rfl
  rw [hparse]
  exact ⟨rfl, rfl, rfl, rfl⟩

/-- C4 witness: a concrete candidate with two digit-string links round-trips
through export and parse. -/
theorem claim_C4_witness :
    (parseCandidate (exportCandidateLine
      { id := some (ofString "5042"), inCount := 3, outCount := 4,
        links := [some (ofString "17"), some (ofString "23")],
        url := ofString "https://nl.wikipedia.org/wiki/X",
        name := ofString "X", normalName := ofString "x",
        normalWikiTitle := ofString "x",
        references := [] })).map PCand.id = .ok (ofString "5042") ∧
    (parseCandidate (exportCandidateLine
      { id := some (ofString "5042"), inCount := 3, outCount := 4,
        links := [some (ofString "17"), some (ofString "23")],
        url := ofString "https://nl.wikipedia.org/wiki/X",
        name := ofString "X", normalName := ofString "x",
        normalWikiTitle := ofString "x",
        references := [] })).map PCand.in_count = .ok ((3 : Nat) : Int) ∧
    (parseCandidate (exportCandidateLine
      { id := some (ofString "5042"), inCount := 3, outCount := 4,
        links := [some (ofString "17"), some (ofString "23")],
        url := ofString "https://nl.wikipedia.org/wiki/X",
        name := ofString "X", normalName := ofString "x",
        normalWikiTitle := ofString "x",
        references := [] })).map PCand.out_count = .ok ((4 : Nat) : Int) ∧
    (parseCandidate (exportCandidateLine
      { id := some (ofString "5042"), inCount := 3, outCount := 4,
        links := [some (ofString "17"), some (ofString "23")],
        url := ofString "https://nl.wikipedia.org/wiki/X",
        name := ofString "X", normalName := ofString "x",
        normalWikiTitle := ofString "x",
        references := [] })).map PCand.links =
      .ok [ofString "17", ofString "23"] :=
  claim_C4 _ (ofString "5042") [ofString "17", ofString "23"]
    (by decide) (by decide) (by decide) (by decide) (by decide) (by decide)
    (by decide) (by decide) (by decide) (by decide)
